import Mathlib

/-!
Verification of the anipaper core against its specification.

The C sources are shallowly embedded:
* machine `int` values become `ℤ` (exact arithmetic; signed overflow is
  undefined behaviour in the C source and is not modelled),
* C `double` values become `ℚ` (exact arithmetic on the same formulas),
* the blocking queue operations become functions returning `Option`:
  `none` models "the calling thread blocks on the condition variable"
  (no concurrent partner in a sequential embedding), `some` carries the
  updated queue state and the C return code,
* `time_secs()` becomes an explicit `now` argument.

Sources: src/anipaper.c (queues, timers, pause machine, threads),
src/util.c (line sweep union area, window clipping, occlusion percent),
src/anipaper.h (constants).
-/

/-- Packet payload: only the fields the queue code touches (`size`), plus an
identifier so distinct packets can be told apart. Models `AVPacket`. -/
structure Packet where
  size : ℤ
  id : ℕ
deriving DecidableEq

/-- Decoded picture handed to the render step: presentation timestamp plus an
identifier. Models a `picture_list` payload (`pts`, `SDL_Texture`). -/
structure Picture where
  pts : ℚ
  id : ℕ
deriving DecidableEq

/-- State of `struct packet_queue` from src/anipaper.c: the linked list of
packets (head first), the element counter `npkts` and the byte counter
`size`. The mutex and condition variable have no sequential content. -/
structure PacketQueue where
  pkts : List Packet
  npkts : ℤ
  size : ℤ
deriving DecidableEq

/-- State of `struct picture_queue` from src/anipaper.c. -/
structure PictureQueue where
  pics : List Picture
  npics : ℤ
deriving DecidableEq

/-- Capacity of the packet queue, `MAX_PACKET_QUEUE` in src/anipaper.c. -/
def MAX_PACKET_QUEUE : ℤ := 128

/-- Capacity of the picture queue, `MAX_PICTURE_QUEUE` in src/anipaper.c. -/
def MAX_PICTURE_QUEUE : ℤ := 8

/-- Queue state after `memset(q, 0, sizeof(*q))` in `init_packet_queue`. -/
def emptyPacketQueue : PacketQueue := ⟨[], 0, 0⟩

/-- Queue state after `memset(q, 0, sizeof(*q))` in `init_picture_queue`. -/
def emptyPictureQueue : PictureQueue := ⟨[], 0⟩

/-- Embedding of `packet_queue_put` (src/anipaper.c:180). Inside the lock the
loop first checks `should_quit` and, if set, breaks out without touching the
queue; the function then returns 1. If the queue is full it waits on the
condition variable (`none` here). Otherwise the node is appended at the tail,
`npkts` and `size` grow, and 1 is returned. -/
def packet_queue_put (should_quit : Bool) (q : PacketQueue) (src_pkt : Packet) :
    Option (PacketQueue × ℤ) :=
  if should_quit then some (q, 1)
  else if q.npkts = MAX_PACKET_QUEUE then none
  else some (⟨q.pkts ++ [src_pkt], q.npkts + 1, q.size + src_pkt.size⟩, 1)

/-- Embedding of `packet_queue_get` (src/anipaper.c:234). The loop aborts with
`ret = -1` when `should_quit` is set or when `end_pkts` is set and the queue
is empty; it waits (`none`) when the queue is empty; otherwise it removes the
head node and returns it with 1. -/
def packet_queue_get (should_quit end_pkts : Bool) (q : PacketQueue) :
    Option (PacketQueue × Option Packet × ℤ) :=
  if should_quit ∨ (end_pkts ∧ q.npkts = 0) then some (q, none, -1)
  else
    match q.pkts with
    | [] => none
    | pkt :: rest => some (⟨rest, q.npkts - 1, q.size - pkt.size⟩, some pkt, 1)

/-- Embedding of the queueing part of `picture_queue_put` (src/anipaper.c:339).
Unlike `packet_queue_put`, on `should_quit` this function sets `ret = -1`
before breaking out of the loop. -/
def picture_queue_put (should_quit : Bool) (q : PictureQueue) (pic : Picture) :
    Option (PictureQueue × ℤ) :=
  if should_quit then some (q, -1)
  else if q.npics = MAX_PICTURE_QUEUE then none
  else some (⟨q.pics ++ [pic], q.npics + 1⟩, 1)

/-- Embedding of `picture_queue_get` (src/anipaper.c:434). -/
def picture_queue_get (should_quit end_pics : Bool) (q : PictureQueue) :
    Option (PictureQueue × Option Picture × ℤ) :=
  if should_quit ∨ (end_pics ∧ q.npics = 0) then some (q, none, -1)
  else
    match q.pics with
    | [] => none
    | pic :: rest => some (⟨rest, q.npics - 1⟩, some pic, 1)

/-- Run a sequence of `packet_queue_put` calls (no shutdown requested),
failing if any call would block. -/
def packet_put_all (q : PacketQueue) : List Packet → Option PacketQueue
  | [] => some q
  | p :: rest =>
    match packet_queue_put false q p with
    | none => none
    | some qr => packet_put_all qr.1 rest

/-- Run `n` `packet_queue_get` calls (no shutdown, no end-of-stream),
collecting the returned packets in order. -/
def packet_get_all (q : PacketQueue) : ℕ → Option (List Packet × PacketQueue)
  | 0 => some ([], q)
  | n + 1 =>
    match packet_queue_get false false q with
    | some (q', some pkt, _) =>
      match packet_get_all q' n with
      | some (l, qf) => some (pkt :: l, qf)
      | none => none
    | _ => none

/-- Run a sequence of `picture_queue_put` calls (no shutdown requested). -/
def picture_put_all (q : PictureQueue) : List Picture → Option PictureQueue
  | [] => some q
  | p :: rest =>
    match picture_queue_put false q p with
    | none => none
    | some qr => picture_put_all qr.1 rest

/-- Run `n` `picture_queue_get` calls (no shutdown, no end-of-stream). -/
def picture_get_all (q : PictureQueue) : ℕ → Option (List Picture × PictureQueue)
  | 0 => some ([], q)
  | n + 1 =>
    match picture_queue_get false false q with
    | some (q', some pic, _) =>
      match picture_get_all q' n with
      | some (l, qf) => some (pic :: l, qf)
      | none => none
    | _ => none

/-- Observable state of the demux thread `enqueue_packets_thread`
(src/anipaper.c:948): the read position in the input stream, the global
`end_pkts` flag, and whether the thread is still in its read loop. -/
structure DemuxState where
  pos : ℕ
  endPkts : Bool
  running : Bool
deriving DecidableEq

/-- One iteration of the `enqueue_packets_thread` read loop with
`should_quit` clear, over an input of `nframes` packets. A successful
`av_read_frame` advances the position (the packet goes to the queue). At
end-of-input the code sets `end_pkts = 1` and signals the queue, then — and
only then — checks `CMD_LOOP`: with loop mode it seeks back to position 0 and
keeps running, without loop mode the thread leaves the loop. The `end_pkts`
flag is never cleared anywhere in the program. -/
def enqueue_packets_step (loop_on : Bool) (nframes : ℕ) (s : DemuxState) : DemuxState :=
  if ¬ s.running then s
  else if s.pos < nframes then ⟨s.pos + 1, s.endPkts, true⟩
  else if loop_on then ⟨0, true, true⟩
  else ⟨s.pos, true, false⟩

/-- The FPS-management fields of `struct av_decode_params`
(src/anipaper.h): `frame_last_delay`, `frame_last_pts`, `frame_timer`. -/
structure SyncState where
  frame_last_delay : ℚ
  frame_last_pts : ℚ
  frame_timer : ℚ
deriving DecidableEq

/-- Embedding of `adjust_timers` (src/anipaper.c:594). `now` stands for the
`time_secs()` call. Returns the updated state and `true_delay`. -/
def adjust_timers (pts now : ℚ) (dp : SyncState) : SyncState × ℚ :=
  let delay0 := pts - dp.frame_last_pts
  let delay := if delay0 ≤ 0 ∨ 1 ≤ delay0 then dp.frame_last_delay else delay0
  let ft := dp.frame_timer + delay
  (⟨delay, pts, ft⟩, ft - now)

/-- Modelled from the spec: the per-frame SyncClock pseudocode of section 4.4
(delay from pts difference, fallback to the previous cadence when the delay
is non-positive or at least 1.0 s, accumulate into the frame timer, return
the wall-clock wait). Used to state the refinement for claim C4. -/
def syncClockSpec (pts now : ℚ) (s : SyncState) : SyncState × ℚ :=
  let delay := pts - s.frame_last_pts
  let delay := if delay ≤ 0 ∨ 1 ≤ delay then s.frame_last_delay else delay
  let last_delay := delay
  let last_pts := pts
  let frame_timer := s.frame_timer + delay
  let true_delay := frame_timer - now
  (⟨last_delay, last_pts, frame_timer⟩, true_delay)

/-- The pause fields of `struct av_decode_params`: `paused`,
`time_before_pause`, and the `frame_timer` it compensates. -/
structure PauseState where
  paused : Bool
  time_before_pause : ℚ
  frame_timer : ℚ
deriving DecidableEq

/-- Embedding of `change_execution` (src/anipaper.c:633). `now` stands for
`time_secs()`. A pause request on a running state records the pause start; a
resume request on a paused state adds the elapsed pause time to
`frame_timer`; a request matching the current state jumps to `out` and
changes nothing. -/
def change_execution (now : ℚ) (should_pause : Bool) (dp : PauseState) : PauseState :=
  if should_pause then
    if ¬ dp.paused then ⟨true, now, dp.frame_timer⟩ else dp
  else
    if dp.paused then ⟨false, dp.time_before_pause, dp.frame_timer + (now - dp.time_before_pause)⟩
    else dp

/-- A frame as seen by the render step: its presentation timestamp and the
`time_secs()` value observed when `adjust_timers` runs for it. -/
structure FrameIn where
  pts : ℚ
  now : ℚ
deriving DecidableEq

/-- C cast of a `double` to `int`: truncation toward zero. -/
def c_trunc (x : ℚ) : ℤ := if 0 ≤ x then ⌊x⌋ else -⌊-x⌋

/-- Embedding of the frame-skipping part of `refresh_screen`
(src/anipaper.c:763), on the non-paused path. Each iteration dequeues a frame
(`[]` models `picture_queue_get` returning failure/end-of-stream, upon which
the code posts `SDL_QUIT`), adjusts the timers, and either discards a frame
whose `true_delay` is below 0.010 s and immediately loops for the next one,
or displays the frame and schedules the next refresh after
`(int)((true_delay * 1000) + 0.5)` milliseconds. Returns the final sync
state, the discarded frames in order, and the displayed frame with its
scheduled delay (none when the queue ended). -/
def refresh_screen : SyncState → List FrameIn → SyncState × List FrameIn × Option (FrameIn × ℤ)
  | s, [] => (s, [], none)
  | s, f :: rest =>
    let r := adjust_timers f.pts f.now s
    if r.2 < 1 / 100 then
      let t := refresh_screen r.1 rest
      (t.1, f :: t.2.1, t.2.2)
    else (r.1, [], some (f, c_trunc (r.2 * 1000 + 1 / 2)))

/-- Modelled from the spec: the render-step contract of section 4.4 — a frame
with `true_delay < 10ms` is discarded with no display and no scheduled delay
and the next frame is pulled at once; the first frame with
`true_delay ≥ 10ms` is displayed and the next wake-up is scheduled after
`true_delay` converted to milliseconds and rounded to the nearest
millisecond; an ended queue yields no display. Used to state claim C5. -/
inductive RenderStepSpec :
    SyncState → List FrameIn → SyncState × List FrameIn × Option (FrameIn × ℤ) → Prop
  | end_of_stream (s : SyncState) : RenderStepSpec s [] (s, [], none)
  | late_skip {s : SyncState} {f : FrameIn} {rest : List FrameIn}
      {out : SyncState × List FrameIn × Option (FrameIn × ℤ)} :
      (adjust_timers f.pts f.now s).2 < 1 / 100 →
      RenderStepSpec (adjust_timers f.pts f.now s).1 rest out →
      RenderStepSpec s (f :: rest) (out.1, f :: out.2.1, out.2.2)
  | display {s : SyncState} {f : FrameIn} {rest : List FrameIn} :
      1 / 100 ≤ (adjust_timers f.pts f.now s).2 →
      RenderStepSpec s (f :: rest)
        ((adjust_timers f.pts f.now s).1, [],
          some (f, round ((adjust_timers f.pts f.now s).2 * 1000)))

/-- Window rectangle, `struct rect` from src/util.c. -/
structure Rect where
  x1 : ℤ
  y1 : ℤ
  x2 : ℤ
  y2 : ℤ
deriving DecidableEq

/-- The `OPENING` sweep constant from src/util.c. -/
def OPENING : ℤ := 1

/-- The `CLOSING` sweep constant from src/util.c. -/
def CLOSING : ℤ := -1

/-- Sweep event, `struct event` from src/util.c. -/
structure SweepEvent where
  y : ℤ
  offset : ℤ
  x1 : ℤ
  x2 : ℤ
deriving DecidableEq

/-- Embedding of `cmp_event` (src/util.c:130): compare by `y`, then by
`offset`, then by `x1`, then by `x2`, each ascending. -/
def cmp_event (e1 e2 : SweepEvent) : ℤ :=
  if e1.y ≠ e2.y then e1.y - e2.y
  else if e1.offset ≠ e2.offset then e1.offset - e2.offset
  else if e1.x1 ≠ e2.x1 then e1.x1 - e2.x1
  else if e1.x2 ≠ e2.x2 then e1.x2 - e2.x2
  else 0

/-- The ordering `qsort` establishes with `cmp_event`. -/
def event_le (e1 e2 : SweepEvent) : Prop := cmp_event e1 e2 ≤ 0

instance : DecidableRel event_le :=
  fun e1 e2 => inferInstanceAs (Decidable (cmp_event e1 e2 ≤ 0))

instance : IsTotal SweepEvent event_le where
  total := by
    intro a b
    unfold event_le cmp_event
    split_ifs <;> omega

set_option maxHeartbeats 2000000 in
instance : IsTrans SweepEvent event_le where
  trans := by
    intro a b c h1 h2
    unfold event_le cmp_event at h1 h2 ⊢
    split_ifs at h1 h2 ⊢ <;> omega

/-- The set of distinct X coordinates of the rectangles, sorted ascending:
the contents of the C `i_to_x` array (`hash_xs` collected, dumped to an
array and sorted with `cmp_int`). -/
def i_to_x (rs : List Rect) : List ℤ :=
  List.insertionSort (fun a b : ℤ => a ≤ b) ((rs.map Rect.x1 ++ rs.map Rect.x2).dedup)

/-- The distinct Y coordinates of the rectangles, sorted ascending (used to
bound the union when counting covered cells). -/
def i_to_y (rs : List Rect) : List ℤ :=
  List.insertionSort (fun a b : ℤ => a ≤ b) ((rs.map Rect.y1 ++ rs.map Rect.y2).dedup)

/-- The unsorted event list built by `calculate_area`: one opening event at
`y1` and one closing event at `y2` per rectangle, both carrying the
rectangle's `[x1, x2)` span. -/
def sweep_events (rs : List Rect) : List SweepEvent :=
  rs.flatMap fun r => [⟨r.y1, OPENING, r.x1, r.x2⟩, ⟨r.y2, CLOSING, r.x1, r.x2⟩]

/-- Width `i_to_x[j + 1] - i_to_x[j]` of compressed X slot `j`
(`len_interval` in the C sweep). -/
def slot_width (xs : List ℤ) (j : ℕ) : ℤ := xs.getD (j + 1) 0 - xs.getD j 0

/-- One iteration of the inner sweep loop of `calculate_area` at slot `j`:
`len_interval = i_to_x[j+1] - i_to_x[j]; if (!nb[j]) len += li;
nb[j] += offset; if (!nb[j]) len -= li;`. The state is the pair
(`nb_current_rects`, `len_union_intervals`). -/
def inner_step (off : ℤ) (xs : List ℤ) (st : (ℕ → ℤ) × ℤ) (j : ℕ) : (ℕ → ℤ) × ℤ :=
  let w := slot_width xs j
  let len1 := if st.1 j = 0 then st.2 + w else st.2
  let c' := fun k => if k = j then st.1 j + off else st.1 k
  let len2 := if c' j = 0 then len1 - w else len1
  (c', len2)

/-- Sweep state of `calculate_area`: `previous_y`, the per-slot counter array
`nb_current_rects`, `len_union_intervals`, and the accumulated `area`. -/
structure SweepState where
  previous_y : ℤ
  nb_current_rects : ℕ → ℤ
  len_union_intervals : ℤ
  area : ℤ

/-- One iteration of the outer sweep loop of `calculate_area` for event `e`:
accumulate the band area since `previous_y`, then walk the slots in
`[x_to_i[e.x1], x_to_i[e.x2])` updating counters and union width. -/
def process_event (xs : List ℤ) (st : SweepState) (e : SweepEvent) : SweepState :=
  let area' := st.area + (e.y - st.previous_y) * st.len_union_intervals
  let i1 := xs.indexOf e.x1
  let i2 := xs.indexOf e.x2
  let inner := (List.range' i1 (i2 - i1)).foldl (inner_step e.offset xs)
    (st.nb_current_rects, st.len_union_intervals)
  ⟨e.y, inner.1, inner.2, area'⟩

/-- The event list sorted with `cmp_event`, as `qsort` leaves it (`cmp_event`
compares every field, so any sorting algorithm yields this same list). -/
def sorted_events (rs : List Rect) : List SweepEvent :=
  List.insertionSort event_le (sweep_events rs)

/-- Embedding of `calculate_area` (src/util.c:161): coordinate-compress the X
values, build and sort the event list, and sweep top to bottom. Allocation
failures of the C code are not modelled. -/
def calculate_area (rs : List Rect) : ℤ :=
  ((sorted_events rs).foldl (process_event (i_to_x rs)) ⟨0, fun _ => 0, 0, 0⟩).area

/-- Rectangle `r` covers the unit cell `[p, p+1) × [q, q+1)`. -/
def covers (r : Rect) (p q : ℤ) : Prop :=
  r.x1 ≤ p ∧ p < r.x2 ∧ r.y1 ≤ q ∧ q < r.y2

instance (r : Rect) (p q : ℤ) : Decidable (covers r p q) :=
  inferInstanceAs (Decidable (_ ∧ _ ∧ _ ∧ _))

/-- Some rectangle of the list covers the unit cell at `(p, q)`. -/
def coveredCell (rs : List Rect) (p q : ℤ) : Prop := ∃ r ∈ rs, covers r p q

instance (rs : List Rect) (p q : ℤ) : Decidable (coveredCell rs p q) :=
  inferInstanceAs (Decidable (∃ r ∈ rs, covers r p q))

/-- Least X coordinate of the rectangles (0 for an empty list). -/
def xLo (rs : List Rect) : ℤ := (i_to_x rs).headD 0

/-- Greatest X coordinate of the rectangles (0 for an empty list). -/
def xHi (rs : List Rect) : ℤ := (i_to_x rs).getLastD 0

/-- Least Y coordinate of the rectangles (0 for an empty list). -/
def yLo (rs : List Rect) : ℤ := (i_to_y rs).headD 0

/-- Greatest Y coordinate of the rectangles (0 for an empty list). -/
def yHi (rs : List Rect) : ℤ := (i_to_y rs).getLastD 0

/-- Area of the union of the rectangles, as geometry defines it: the number
of integer unit cells covered by at least one rectangle (every covered cell
lies in the bounding box used here). -/
def unionArea (rs : List Rect) : ℕ :=
  (((Finset.Ico (xLo rs) (xHi rs)) ×ˢ (Finset.Ico (yLo rs) (yHi rs))).filter
    fun pq => coveredCell rs pq.1 pq.2).card

/-- Contribution of one processed sweep event to the counter of slot `j`:
its `offset` if `j` lies in the event's compressed span, 0 otherwise. -/
def eventContrib (xs : List ℤ) (e : SweepEvent) (j : ℕ) : ℤ :=
  if xs.indexOf e.x1 ≤ j ∧ j < xs.indexOf e.x2 then e.offset else 0

/-- Counter value of slot `j` after processing the events of `l`. -/
def cntAfter (xs : List ℤ) (l : List SweepEvent) (j : ℕ) : ℤ :=
  (l.map fun e => eventContrib xs e j).sum

/-- The union width a counter family describes: total width of the slots
with a nonzero counter (the quantity `len_union_intervals` maintains). -/
def lenSpec (xs : List ℤ) (c : ℕ → ℤ) : ℤ :=
  ∑ j ∈ (Finset.range (xs.length - 1)).filter (fun j => c j ≠ 0), slot_width xs j

/-- The rectangles active at scan line `q` (those whose `[y1, y2)` range
contains `q`). -/
def activeRects (rs : List Rect) (q : ℤ) : List Rect :=
  rs.filter fun r => decide (r.y1 ≤ q ∧ q < r.y2)

/-- Rectangle `r` covers compressed slot `j` of the coordinate list `xs`. -/
def slotCovers (xs : List ℤ) (r : Rect) (j : ℕ) : Prop :=
  xs.indexOf r.x1 ≤ j ∧ j < xs.indexOf r.x2

instance (xs : List ℤ) (r : Rect) (j : ℕ) : Decidable (slotCovers xs r j) :=
  inferInstanceAs (Decidable (_ ∧ _))

/-- Number of rectangles active at scan line `q` that cover slot `j`. -/
def activeCnt (rs : List Rect) (q : ℤ) (j : ℕ) : ℕ :=
  (activeRects rs q).countP fun r => decide (slotCovers (i_to_x rs) r j)

/-- The covered integer points of scan line `q` (within the bounding box). -/
def rowCovered (rs : List Rect) (q : ℤ) : Finset ℤ :=
  (Finset.Ico (xLo rs) (xHi rs)).filter fun p => coveredCell rs p q

/-- Number of covered unit cells in row `q` of the union. -/
def Wrow (rs : List Rect) (q : ℤ) : ℕ := (rowCovered rs q).card

/-- The occlusion threshold `SCREEN_AREA_THRESHOLD` (src/anipaper.h). -/
def SCREEN_AREA_THRESHOLD : ℤ := 70

/-- Embedding of the percentage computation of `screen_area_used`
(src/util.c:346) given the clipped visible-window rectangles:
`perc_used = (area * 100) / (screen_width * screen_height)` with C integer
division. -/
def screen_area_used (rects : List Rect) (screen_width screen_height : ℤ) : ℤ :=
  Int.tdiv (calculate_area rects * 100) (screen_width * screen_height)

/-- One decision of `pause_execution_thread` (src/anipaper.c:671) with the
externally toggled `should_pause` flag `sp0` and background mode `bg`: when
not externally paused and running as background, pause exactly if the used
screen area percentage exceeds `SCREEN_AREA_THRESHOLD`. The result is handed
to `change_execution`. -/
def pause_execution_decision (sp0 bg : Bool) (s_area : ℤ) : Bool :=
  if ¬ sp0 ∧ bg then (if s_area > SCREEN_AREA_THRESHOLD then true else sp0) else sp0

/-- The fields of `XWindowAttributes` that `is_visible` reads or writes;
`viewable` models `map_state == IsViewable`. -/
structure XWinAttr where
  x : ℤ
  y : ℤ
  width : ℤ
  height : ℤ
  viewable : Bool
deriving DecidableEq

/-- Right-edge clipping step of `is_visible` (src/util.c:300). -/
def clip_right (a : XWinAttr) (screen_width : ℤ) : Option XWinAttr :=
  if a.x + a.width > screen_width then
    if a.x > screen_width then none
    else some { a with width := screen_width - a.x }
  else some a

/-- Bottom-edge clipping step of `is_visible` (src/util.c:308). -/
def clip_down (a : XWinAttr) (screen_height : ℤ) : Option XWinAttr :=
  if a.y + a.height > screen_height then
    if a.y > screen_height then none
    else some { a with height := screen_height - a.y }
  else some a

/-- Left-edge clipping step of `is_visible` (src/util.c:316). -/
def clip_left (a : XWinAttr) : Option XWinAttr :=
  if a.x < 0 then
    if a.width + a.x < 0 then none
    else some { a with width := a.width + a.x, x := 0 }
  else some a

/-- Top-edge clipping step of `is_visible` (src/util.c:324). -/
def clip_up (a : XWinAttr) : Option XWinAttr :=
  if a.y < 0 then
    if a.height + a.y < 0 then none
    else some { a with height := a.height + a.y, y := 0 }
  else some a

/-- Embedding of `is_visible` (src/util.c:293): reject non-viewable windows,
then clip against the four screen edges in the order of the C code,
rejecting windows that end up entirely off screen. Returns the mutated
attributes on acceptance (`return 1`). -/
def is_visible (a : XWinAttr) (screen_width screen_height : ℤ) : Option XWinAttr :=
  if ¬ a.viewable then none
  else (clip_right a screen_width).bind fun b =>
    (clip_down b screen_height).bind fun c =>
      (clip_left c).bind clip_up

/-- The rectangle `screen_area_used` builds from accepted window attributes
(src/util.c:380): `{x, y, width + x, height + y}`. -/
def window_rect (a : XWinAttr) : Rect := ⟨a.x, a.y, a.width + a.x, a.height + a.y⟩

/-! ## Queue shutdown behaviour (claim C1) -/

/-- C1: after shutdown (`should_quit` set) the two get operations and
`picture_queue_put` return immediately with the failure code -1 and leave the
queue untouched, but `packet_queue_put` returns 1 — its documented success
code — while silently dropping the packet: the claimed Cancelled/failure
outcome does not hold for `packet_queue_put`. -/
theorem packet_queue_put_quit_returns_success :
    ∀ (q : PacketQueue) (pq : PictureQueue) (pkt : Packet) (pic : Picture) (e1 e2 : Bool),
      packet_queue_put true q pkt = some (q, 1) ∧
      packet_queue_get true e1 q = some (q, none, -1) ∧
      picture_queue_put true pq pic = some (pq, -1) ∧
      picture_queue_get true e2 pq = some (pq, none, -1) := by
  intro q pq pkt pic e1 e2
  refine ⟨rfl, ?_, rfl, ?_⟩ <;> simp [packet_queue_get, picture_queue_get]

/-! ## Event comparator tie-breaking (claims C3) -/

/-- C3 counterexample: at equal `y` the comparator orders the opening event
after the closing event (`cmp_event opening closing = 2 > 0`), refuting the
claimed opening-before-closing tie-break. -/
theorem cmp_event_orders_opening_after_closing :
    cmp_event ⟨0, OPENING, 0, 1⟩ ⟨0, CLOSING, 0, 1⟩ = 2 ∧
    0 < cmp_event ⟨0, OPENING, 0, 1⟩ ⟨0, CLOSING, 0, 1⟩ ∧
    cmp_event ⟨0, CLOSING, 0, 1⟩ ⟨0, OPENING, 0, 1⟩ < 0 := by decide

/-- C3 amended: the event list is sorted by `y` ascending with ties broken
closing-before-opening (ascending `offset`, with `CLOSING = -1 < 1 =
OPENING`), then by `x1`, then by `x2`: for every pair of events with equal
`y` where one is a closing event and the other an opening event, the closing
event is ordered strictly before the opening event under `cmp_event`. -/
theorem cmp_event_closing_before_opening :
    ∀ e1 e2 : SweepEvent, e1.y = e2.y → e1.offset = CLOSING → e2.offset = OPENING →
      cmp_event e1 e2 < 0 ∧ 0 < cmp_event e2 e1 := by
  intro e1 e2 hy h1 h2
  constructor <;>
    · unfold cmp_event
      rw [hy, h1, h2]
      norm_num [OPENING, CLOSING]

/-- Witness for `cmp_event_closing_before_opening` at concrete events. -/
theorem cmp_event_closing_before_opening_witness :
    ((⟨5, CLOSING, 0, 2⟩ : SweepEvent).y = (⟨5, OPENING, 1, 3⟩ : SweepEvent).y ∧
      (⟨5, CLOSING, 0, 2⟩ : SweepEvent).offset = CLOSING ∧
      (⟨5, OPENING, 1, 3⟩ : SweepEvent).offset = OPENING) ∧
    (cmp_event ⟨5, CLOSING, 0, 2⟩ ⟨5, OPENING, 1, 3⟩ < 0 ∧
      0 < cmp_event ⟨5, OPENING, 1, 3⟩ ⟨5, CLOSING, 0, 2⟩) :=
  ⟨by decide, cmp_event_closing_before_opening ⟨5, CLOSING, 0, 2⟩ ⟨5, OPENING, 1, 3⟩
    (by decide) (by decide) (by decide)⟩

/-! ## Sync clock (claim C4) -/

/-- C4: `adjust_timers` implements the SyncClock pseudocode: it computes
`delay = pts - frame_last_pts`, replaces it with `frame_last_delay` exactly
when it is non-positive or at least 1.0 s, stores the resulting delay and
`pts` back, adds the resulting delay to `frame_timer`, and returns
`true_delay = frame_timer - now`. -/
theorem adjust_timers_spec :
    ∀ (pts now : ℚ) (dp : SyncState),
      adjust_timers pts now dp = syncClockSpec pts now dp ∧
      (adjust_timers pts now dp).1.frame_last_pts = pts ∧
      (adjust_timers pts now dp).1.frame_timer
        = dp.frame_timer + (adjust_timers pts now dp).1.frame_last_delay ∧
      (adjust_timers pts now dp).2 = (adjust_timers pts now dp).1.frame_timer - now ∧
      (pts - dp.frame_last_pts ≤ 0 ∨ 1 ≤ pts - dp.frame_last_pts →
        (adjust_timers pts now dp).1.frame_last_delay = dp.frame_last_delay) ∧
      (0 < pts - dp.frame_last_pts → pts - dp.frame_last_pts < 1 →
        (adjust_timers pts now dp).1.frame_last_delay = pts - dp.frame_last_pts) := by
  intro pts now dp
  refine ⟨rfl, rfl, rfl, rfl, ?_, ?_⟩
  · intro h
    dsimp only [adjust_timers]
    rw [if_pos h]
  · intro h1 h2
    have hno : ¬ (pts - dp.frame_last_pts ≤ 0 ∨ 1 ≤ pts - dp.frame_last_pts) := by
      push_neg
      exact ⟨h1, h2⟩
    dsimp only [adjust_timers]
    rw [if_neg hno]

/-- Witness for `adjust_timers_spec`: with both a fallback case (`pts` equal
to the previous pts gives `delay = 0 ≤ 0`, so the previous delay 3/100 is
kept) exercising the conditional conjunct. -/
theorem adjust_timers_spec_witness :
    ((0 : ℚ) - (⟨3/100, 0, 10⟩ : SyncState).frame_last_pts ≤ 0 ∨
      1 ≤ (0 : ℚ) - (⟨3/100, 0, 10⟩ : SyncState).frame_last_pts) ∧
    (adjust_timers 0 5 ⟨3/100, 0, 10⟩).1.frame_last_delay = 3/100 :=
  ⟨Or.inl (by norm_num),
    (adjust_timers_spec 0 5 ⟨3/100, 0, 10⟩).2.2.2.2.1 (Or.inl (by norm_num))⟩

/-! ## Render-step frame skipping (claim C5) -/

/-- C5: the render step satisfies the spec's skip/display contract: every
dequeued frame whose `true_delay` is below 0.010 s is discarded with no
display and no scheduled delay and the next frame is pulled at once,
repeating until a frame with `true_delay ≥ 0.010` s is found (displayed,
with the next wake-up scheduled after `true_delay` in milliseconds rounded
to the nearest millisecond) or the queue ends. -/
theorem refresh_screen_satisfies_renderSpec :
    ∀ (s : SyncState) (frames : List FrameIn),
      RenderStepSpec s frames (refresh_screen s frames) := by
  intro s frames
  induction frames generalizing s with
  | nil => exact RenderStepSpec.end_of_stream s
  | cons f rest ih =>
    by_cases h : (adjust_timers f.pts f.now s).2 < 1 / 100
    · have hstep := RenderStepSpec.late_skip (s := s) (f := f) h
        (ih (adjust_timers f.pts f.now s).1)
      simp only [refresh_screen]
      rw [if_pos h]
      exact hstep
    · push_neg at h
      simp only [refresh_screen]
      rw [if_neg (not_lt.2 h)]
      have hc : c_trunc ((adjust_timers f.pts f.now s).2 * 1000 + 1 / 2)
          = round ((adjust_timers f.pts f.now s).2 * 1000) := by
        have hnn : (0 : ℚ) ≤ (adjust_timers f.pts f.now s).2 * 1000 + 1 / 2 := by
          nlinarith [h]
      
        rw [round_eq]
        unfold c_trunc
        rw [if_pos hnn]
      rw [hc]
      exact RenderStepSpec.display h

/-! ## Pause state machine (claim C6) -/

/-- C6: `change_execution` implements the pause state machine: pausing a
running state records `now` as the pause start and leaves `frame_timer`
unchanged; resuming a paused state adds the elapsed pause duration to
`frame_timer`; requests that do not change the state change nothing; and a
pause at time `now` followed by a resume at time `t` adds exactly the pause
duration `t - now` to `frame_timer`. -/
theorem change_execution_spec :
    ∀ (now t tbp ft : ℚ),
      change_execution now true ⟨false, tbp, ft⟩ = ⟨true, now, ft⟩ ∧
      change_execution now false ⟨true, tbp, ft⟩ = ⟨false, tbp, ft + (now - tbp)⟩ ∧
      change_execution now true ⟨true, tbp, ft⟩ = ⟨true, tbp, ft⟩ ∧
      change_execution now false ⟨false, tbp, ft⟩ = ⟨false, tbp, ft⟩ ∧
      (change_execution t false (change_execution now true ⟨false, tbp, ft⟩)).frame_timer
        = ft + (t - now) := by
  intro now t tbp ft
  refine ⟨?_, ?_, ?_, ?_, ?_⟩ <;> simp [change_execution]

/-! ## Occlusion threshold (claim C7) -/

/-- C7: the occlusion monitor computes `used_percent` as 100 times the union
area divided by the screen area with integer arithmetic, and (with no
external pause toggle, in background mode) requests pause exactly when
`used_percent` strictly exceeds the threshold 70; concrete window lists
covering 71% and 69% of a 10 by 10 screen give pause and resume
respectively. -/
theorem pause_threshold_spec :
    ∀ (rl : List Rect) (sw sh : ℤ),
      pause_execution_decision false true (screen_area_used rl sw sh)
        = decide (screen_area_used rl sw sh > SCREEN_AREA_THRESHOLD) ∧
      screen_area_used rl sw sh = Int.tdiv (100 * calculate_area rl) (sw * sh) ∧
      SCREEN_AREA_THRESHOLD = 70 ∧
      screen_area_used [⟨0, 0, 10, 7⟩, ⟨0, 7, 1, 8⟩] 10 10 = 71 ∧
      pause_execution_decision false true
        (screen_area_used [⟨0, 0, 10, 7⟩, ⟨0, 7, 1, 8⟩] 10 10) = true ∧
      screen_area_used [⟨0, 0, 10, 6⟩, ⟨0, 6, 9, 7⟩] 10 10 = 69 ∧
      pause_execution_decision false true
        (screen_area_used [⟨0, 0, 10, 6⟩, ⟨0, 6, 9, 7⟩] 10 10) = false := by
  intro rl sw sh
  refine ⟨?_, ?_, rfl, by decide, by decide, by decide, by decide⟩
  · simp only [pause_execution_decision, SCREEN_AREA_THRESHOLD]
    split_ifs with hb h <;> simp_all
  · show Int.tdiv (calculate_area rl * 100) _ = _
    rw [Int.mul_comm]

/-! ## Loop mode and the end-of-packets marker (claim C8) -/

/-- C8: evaluation of the demux loop at its failing input. With loop mode
on, no quit requested, and a 3-packet stream, the fourth loop iteration hits
end-of-input: the code sets `end_pkts = 1` and only then seeks back to
position 0 and keeps running, and the flag is never cleared. Consequently
`packet_queue_get` on a momentarily empty queue then returns -1
(end-of-stream) instead of waiting, so the pipeline can drain to a stop even
in loop mode, contrary to the claim that the marker stays unset. -/
theorem demux_loop_sets_end_pkts :
    (enqueue_packets_step true 3)^[4] ⟨0, false, true⟩ = (⟨0, true, true⟩ : DemuxState) ∧
    packet_queue_get false true emptyPacketQueue = some (emptyPacketQueue, none, -1) := by
  constructor
  · decide
  · decide

/-! ## Bounded FIFO behaviour (claim C9) -/

/-- Helper: a sequence of packet puts that fits under the capacity succeeds
and appends the packets at the tail in order. -/
theorem packet_put_all_ok :
    ∀ (ps : List Packet) (q : PacketQueue),
      q.npkts = q.pkts.length → (q.pkts.length + ps.length : ℤ) ≤ 128 →
      ∃ q', packet_put_all q ps = some q' ∧ q'.pkts = q.pkts ++ ps ∧
        q'.npkts = q'.pkts.length := by
  intro ps
  induction ps with
  | nil =>
    intro q h1 h2
    exact ⟨q, rfl, by simp, h1⟩
  | cons p rest ih =>
    intro q h1 h2
    have hne : q.npkts ≠ MAX_PACKET_QUEUE := by
      rw [h1]
      unfold MAX_PACKET_QUEUE
      simp only [List.length_cons] at h2
      push_cast at h2 ⊢
      omega
    have hq' : packet_put_all q (p :: rest)
        = packet_put_all ⟨q.pkts ++ [p], q.npkts + 1, q.size + p.size⟩ rest := by
      simp only [packet_put_all, packet_queue_put, Bool.false_eq_true, if_false]
      rw [if_neg hne]
    obtain ⟨q', hrun, hpkts, hlen⟩ :=
      ih ⟨q.pkts ++ [p], q.npkts + 1, q.size + p.size⟩
        (by simp [h1]) (by simp only [List.length_cons] at h2; push_cast at h2 ⊢; simp; omega)
    refine ⟨q', by rw [hq', hrun], by simpa using hpkts, hlen⟩

/-- Helper: getting as many packets as the queue holds returns exactly the
queued packets, head first, and empties the queue. -/
theorem packet_get_all_ok :
    ∀ (ps : List Packet) (q : PacketQueue),
      q.pkts = ps → q.npkts = ps.length →
      ∃ qf, packet_get_all q ps.length = some (ps, qf) ∧ qf.pkts = [] ∧ qf.npkts = 0 := by
  intro ps
  induction ps with
  | nil =>
    intro q h1 h2
    exact ⟨q, rfl, h1, by simpa using h2⟩
  | cons p rest ih =>
    intro q h1 h2
    have hget : packet_queue_get false false q
        = some (⟨rest, q.npkts - 1, q.size - p.size⟩, some p, 1) := by
      simp only [packet_queue_get, Bool.false_eq_true, false_and, false_or, if_false]
      rw [h1]
    obtain ⟨qf, hrun, hpkts, hn⟩ := ih ⟨rest, q.npkts - 1, q.size - p.size⟩ rfl
      (by simp only [List.length_cons] at h2; push_cast at h2 ⊢; omega)
    refine ⟨qf, ?_, hpkts, hn⟩
    simp only [List.length_cons, packet_get_all, hget, hrun]

/-- Helper: a sequence of picture puts that fits under the capacity succeeds
and appends the pictures at the tail in order. -/
theorem picture_put_all_ok :
    ∀ (ps : List Picture) (q : PictureQueue),
      q.npics = q.pics.length → (q.pics.length + ps.length : ℤ) ≤ 8 →
      ∃ q', picture_put_all q ps = some q' ∧ q'.pics = q.pics ++ ps ∧
        q'.npics = q'.pics.length := by
  intro ps
  induction ps with
  | nil =>
    intro q h1 h2
    exact ⟨q, rfl, by simp, h1⟩
  | cons p rest ih =>
    intro q h1 h2
    have hne : q.npics ≠ MAX_PICTURE_QUEUE := by
      rw [h1]
      unfold MAX_PICTURE_QUEUE
      simp only [List.length_cons] at h2
      push_cast at h2 ⊢
      omega
    have hq' : picture_put_all q (p :: rest)
        = picture_put_all ⟨q.pics ++ [p], q.npics + 1⟩ rest := by
      simp only [picture_put_all, picture_queue_put, Bool.false_eq_true, if_false]
      rw [if_neg hne]
    obtain ⟨q', hrun, hpics, hlen⟩ :=
      ih ⟨q.pics ++ [p], q.npics + 1⟩
        (by simp [h1]) (by simp only [List.length_cons] at h2; push_cast at h2 ⊢; simp; omega)
    refine ⟨q', by rw [hq', hrun], by simpa using hpics, hlen⟩

/-- Helper: getting as many pictures as the queue holds returns exactly the
queued pictures, head first, and empties the queue. -/
theorem picture_get_all_ok :
    ∀ (ps : List Picture) (q : PictureQueue),
      q.pics = ps → q.npics = ps.length →
      ∃ qf, picture_get_all q ps.length = some (ps, qf) ∧ qf.pics = [] ∧ qf.npics = 0 := by
  intro ps
  induction ps with
  | nil =>
    intro q h1 h2
    exact ⟨q, rfl, h1, by simpa using h2⟩
  | cons p rest ih =>
    intro q h1 h2
    have hget : picture_queue_get false false q
        = some (⟨rest, q.npics - 1⟩, some p, 1) := by
      simp only [picture_queue_get, Bool.false_eq_true, false_and, false_or, if_false]
      rw [h1]
    obtain ⟨qf, hrun, hpics, hn⟩ := ih ⟨rest, q.npics - 1⟩ rfl
      (by simp only [List.length_cons] at h2; push_cast at h2 ⊢; omega)
    refine ⟨qf, ?_, hpics, hn⟩
    simp only [List.length_cons, picture_get_all, hget, hrun]

/-- C9: both queues are bounded FIFOs. Starting from the freshly initialised
queue, any sequence of at most capacity-many puts (128 packets, 8 pictures)
succeeds, every intermediate queue length stays within the capacity, and
getting the same number of items returns them in exactly insertion order,
leaving the queue empty. -/
theorem queues_fifo_bounded :
    ∀ (ps : List Packet) (fs : List Picture),
      ps.length ≤ 128 → fs.length ≤ 8 →
      (∃ q', packet_put_all emptyPacketQueue ps = some q' ∧ q'.pkts = ps ∧
        (∀ n, ∃ qn, packet_put_all emptyPacketQueue (ps.take n) = some qn ∧
          qn.pkts.length ≤ 128) ∧
        ∃ qf, packet_get_all q' ps.length = some (ps, qf) ∧ qf.pkts = []) ∧
      (∃ q', picture_put_all emptyPictureQueue fs = some q' ∧ q'.pics = fs ∧
        (∀ n, ∃ qn, picture_put_all emptyPictureQueue (fs.take n) = some qn ∧
          qn.pics.length ≤ 8) ∧
        ∃ qf, picture_get_all q' fs.length = some (fs, qf) ∧ qf.pics = []) := by
  intro ps fs hps hfs
  constructor
  · obtain ⟨q', hrun, hpkts, hlen⟩ := packet_put_all_ok ps emptyPacketQueue (by rfl)
      (by simp only [emptyPacketQueue]; simpa using hps)
    refine ⟨q', hrun, by simpa using hpkts, ?_, ?_⟩
    · intro n
      obtain ⟨qn, hrunn, hpktsn, _⟩ := packet_put_all_ok (ps.take n) emptyPacketQueue (by rfl)
        (by simp only [emptyPacketQueue, List.length_take, List.length_nil]; push_cast; omega)
      refine ⟨qn, hrunn, ?_⟩
      have h1 : qn.pkts.length = (ps.take n).length := by
        rw [hpktsn]; simp [emptyPacketQueue]
      rw [h1, List.length_take]
      omega
    · have hplen : q'.pkts = ps := by simpa using hpkts
      obtain ⟨qf, hget, hempty, _⟩ := packet_get_all_ok ps q' hplen
        (by rw [hlen, hplen])
      exact ⟨qf, hget, hempty⟩
  · obtain ⟨q', hrun, hpics, hlen⟩ := picture_put_all_ok fs emptyPictureQueue (by rfl)
      (by simp only [emptyPictureQueue]; simpa using hfs)
    refine ⟨q', hrun, by simpa using hpics, ?_, ?_⟩
    · intro n
      obtain ⟨qn, hrunn, hpicsn, _⟩ := picture_put_all_ok (fs.take n) emptyPictureQueue (by rfl)
        (by simp only [emptyPictureQueue, List.length_take, List.length_nil]; push_cast; omega)
      refine ⟨qn, hrunn, ?_⟩
      have h1 : qn.pics.length = (fs.take n).length := by
        rw [hpicsn]; simp [emptyPictureQueue]
      rw [h1, List.length_take]
      omega
    · have hplen : q'.pics = fs := by simpa using hpics
      obtain ⟨qf, hget, hempty, _⟩ := picture_get_all_ok fs q' hplen
        (by rw [hlen, hplen])
      exact ⟨qf, hget, hempty⟩

/-- Witness for `queues_fifo_bounded` at a concrete pair of sequences. -/
theorem queues_fifo_bounded_witness :
    (([⟨5, 0⟩, ⟨7, 1⟩] : List Packet).length ≤ 128 ∧
      ([⟨0, 0⟩] : List Picture).length ≤ 8) ∧
    ((∃ q', packet_put_all emptyPacketQueue [⟨5, 0⟩, ⟨7, 1⟩] = some q' ∧
        q'.pkts = [⟨5, 0⟩, ⟨7, 1⟩] ∧
        (∀ n, ∃ qn, packet_put_all emptyPacketQueue (([⟨5, 0⟩, ⟨7, 1⟩] : List Packet).take n)
            = some qn ∧ qn.pkts.length ≤ 128) ∧
        ∃ qf, packet_get_all q' ([⟨5, 0⟩, ⟨7, 1⟩] : List Packet).length
            = some ([⟨5, 0⟩, ⟨7, 1⟩], qf) ∧ qf.pkts = []) ∧
      (∃ q', picture_put_all emptyPictureQueue [⟨0, 0⟩] = some q' ∧ q'.pics = [⟨0, 0⟩] ∧
        (∀ n, ∃ qn, picture_put_all emptyPictureQueue (([⟨0, 0⟩] : List Picture).take n)
            = some qn ∧ qn.pics.length ≤ 8) ∧
        ∃ qf, picture_get_all q' ([⟨0, 0⟩] : List Picture).length
            = some ([⟨0, 0⟩], qf) ∧ qf.pics = [])) :=
  ⟨⟨by decide, by decide⟩,
    queues_fifo_bounded [⟨5, 0⟩, ⟨7, 1⟩] [⟨0, 0⟩] (by decide) (by decide)⟩

/-! ## Window clipping (claim C10) -/

/-- C10 counterexample: the viewable window at `x = 10` with width 1 on a
10 by 10 screen is accepted by `is_visible` but clipped to width 0, so the
rectangle handed to the union engine has `x1 = x2 = 10`, violating the
claimed strict `x1 < x2`. -/
theorem is_visible_accepts_degenerate_rect :
    is_visible ⟨10, 0, 1, 1, true⟩ 10 10 = some ⟨10, 0, 0, 1, true⟩ ∧
    ¬ ((window_rect ⟨10, 0, 0, 1, true⟩).x1 < (window_rect ⟨10, 0, 0, 1, true⟩).x2) ∧
    (window_rect ⟨10, 0, 0, 1, true⟩).x1 = 10 ∧
    (window_rect ⟨10, 0, 0, 1, true⟩).x2 = 10 := by decide

/-- Helper: right clipping keeps the width nonnegative and pushes the right
edge inside the screen; the other fields are untouched. -/
theorem clip_right_ok {a b : XWinAttr} {sw : ℤ} (hw : 0 ≤ a.width)
    (h : clip_right a sw = some b) :
    0 ≤ b.width ∧ b.x + b.width ≤ sw ∧ b.x = a.x ∧ b.y = a.y ∧ b.height = a.height ∧
      b.viewable = a.viewable := by
  unfold clip_right at h
  by_cases h1 : a.x + a.width > sw
  · by_cases h2 : a.x > sw
    · rw [if_pos h1, if_pos h2] at h
      exact Option.noConfusion h
    · rw [if_pos h1, if_neg h2] at h
      injection h with hb
      subst hb
      refine ⟨?_, ?_, rfl, rfl, rfl, rfl⟩ <;> dsimp <;> omega
  · rw [if_neg h1] at h
    injection h with hb
    subst hb
    exact ⟨hw, by omega, rfl, rfl, rfl, rfl⟩

/-- Helper: bottom clipping keeps the height nonnegative and pushes the
bottom edge inside the screen; the other fields are untouched. -/
theorem clip_down_ok {a b : XWinAttr} {sh : ℤ} (hh : 0 ≤ a.height)
    (h : clip_down a sh = some b) :
    0 ≤ b.height ∧ b.y + b.height ≤ sh ∧ b.x = a.x ∧ b.width = a.width ∧ b.y = a.y ∧
      b.viewable = a.viewable := by
  unfold clip_down at h
  by_cases h1 : a.y + a.height > sh
  · by_cases h2 : a.y > sh
    · rw [if_pos h1, if_pos h2] at h
      exact Option.noConfusion h
    · rw [if_pos h1, if_neg h2] at h
      injection h with hb
      subst hb
      refine ⟨?_, ?_, rfl, rfl, rfl, rfl⟩ <;> dsimp <;> omega
  · rw [if_neg h1] at h
    injection h with hb
    subst hb
    exact ⟨hh, by omega, rfl, rfl, rfl, rfl⟩

/-- Helper: left clipping makes `x` nonnegative while preserving the right
edge `x + width` and keeping the width nonnegative; `y`, `height` and
`viewable` are untouched. -/
theorem clip_left_ok {a b : XWinAttr} (hw : 0 ≤ a.width)
    (h : clip_left a = some b) :
    0 ≤ b.x ∧ 0 ≤ b.width ∧ b.x + b.width = a.x + a.width ∧ b.y = a.y ∧
      b.height = a.height ∧ b.viewable = a.viewable := by
  unfold clip_left at h
  by_cases h1 : a.x < 0
  · by_cases h2 : a.width + a.x < 0
    · rw [if_pos h1, if_pos h2] at h
      exact Option.noConfusion h
    · rw [if_pos h1, if_neg h2] at h
      injection h with hb
      subst hb
      refine ⟨le_refl 0, ?_, ?_, rfl, rfl, rfl⟩ <;> dsimp <;> omega
  · rw [if_neg h1] at h
    injection h with hb
    subst hb
    exact ⟨by omega, hw, rfl, rfl, rfl, rfl⟩

/-- Helper: top clipping makes `y` nonnegative while preserving the bottom
edge `y + height` and keeping the height nonnegative; `x`, `width` and
`viewable` are untouched. -/
theorem clip_up_ok {a b : XWinAttr} (hh : 0 ≤ a.height)
    (h : clip_up a = some b) :
    0 ≤ b.y ∧ 0 ≤ b.height ∧ b.y + b.height = a.y + a.height ∧ b.x = a.x ∧
      b.width = a.width ∧ b.viewable = a.viewable := by
  unfold clip_up at h
  by_cases h1 : a.y < 0
  · by_cases h2 : a.height + a.y < 0
    · rw [if_pos h1, if_pos h2] at h
      exact Option.noConfusion h
    · rw [if_pos h1, if_neg h2] at h
      injection h with hb
      subst hb
      refine ⟨le_refl 0, ?_, ?_, rfl, rfl, rfl⟩ <;> dsimp <;> omega
  · rw [if_neg h1] at h
    injection h with hb
    subst hb
    exact ⟨by omega, hh, rfl, rfl, rfl, rfl⟩

/-- C10 amended: every window attribute record with nonnegative width and
height that `is_visible` accepts (given positive screen dimensions) yields a
clipped screen rectangle with `x1 ≤ x2`, `y1 ≤ y2`, lying entirely within
the screen bounds; the inequalities are not strict — a window touching the
screen edge is accepted with a degenerate empty rectangle. -/
theorem is_visible_clipped_bounds :
    ∀ (a : XWinAttr) (sw sh : ℤ) (b : XWinAttr),
      0 < sw → 0 < sh → 0 ≤ a.width → 0 ≤ a.height →
      is_visible a sw sh = some b →
      0 ≤ (window_rect b).x1 ∧ (window_rect b).x1 ≤ (window_rect b).x2 ∧
        (window_rect b).x2 ≤ sw ∧ 0 ≤ (window_rect b).y1 ∧
        (window_rect b).y1 ≤ (window_rect b).y2 ∧ (window_rect b).y2 ≤ sh := by
  intro a sw sh b hsw hsh hw hh hvis
  unfold is_visible at hvis
  by_cases hv : a.viewable = true
  · rw [if_neg (by simp [hv])] at hvis
    obtain ⟨a1, h1, hvis⟩ := Option.bind_eq_some.mp hvis
    obtain ⟨a2, h2, hvis⟩ := Option.bind_eq_some.mp hvis
    obtain ⟨a3, h3, h4⟩ := Option.bind_eq_some.mp hvis
    obtain ⟨hw1, hxr1, hx1, hy1, hh1, _⟩ := clip_right_ok hw h1
    obtain ⟨hh2, hyr2, hx2, hwidth2, hy2, _⟩ := clip_down_ok (hh1 ▸ hh) h2
    obtain ⟨hx3, hw3, hsum3, hy3, hh3, _⟩ := clip_left_ok (hwidth2 ▸ hw1) h3
    obtain ⟨hy4, hh4, hsum4, hx4, hw4, _⟩ := clip_up_ok (hh3 ▸ hh2) h4
    unfold window_rect
    dsimp
    refine ⟨by omega, by omega, ?_, by omega, by omega, ?_⟩
    · omega
    · omega
  · rw [if_pos (by simpa using hv)] at hvis
    exact Option.noConfusion hvis

/-- Witness for `is_visible_clipped_bounds`: a window overlapping the
top-left corner is clipped to the screen. -/
theorem is_visible_clipped_bounds_witness :
    ((0 : ℤ) < 10 ∧ (0 : ℤ) < 10 ∧
      (0 : ℤ) ≤ (⟨-2, -3, 5, 6, true⟩ : XWinAttr).width ∧
      (0 : ℤ) ≤ (⟨-2, -3, 5, 6, true⟩ : XWinAttr).height ∧
      is_visible ⟨-2, -3, 5, 6, true⟩ 10 10 = some ⟨0, 0, 3, 3, true⟩) ∧
    (0 ≤ (window_rect ⟨0, 0, 3, 3, true⟩).x1 ∧
      (window_rect ⟨0, 0, 3, 3, true⟩).x1 ≤ (window_rect ⟨0, 0, 3, 3, true⟩).x2 ∧
      (window_rect ⟨0, 0, 3, 3, true⟩).x2 ≤ 10 ∧
      0 ≤ (window_rect ⟨0, 0, 3, 3, true⟩).y1 ∧
      (window_rect ⟨0, 0, 3, 3, true⟩).y1 ≤ (window_rect ⟨0, 0, 3, 3, true⟩).y2 ∧
      (window_rect ⟨0, 0, 3, 3, true⟩).y2 ≤ 10) :=
  ⟨⟨by decide, by decide, by decide, by decide, by decide⟩,
    is_visible_clipped_bounds ⟨-2, -3, 5, 6, true⟩ 10 10 ⟨0, 0, 3, 3, true⟩
      (by decide) (by decide) (by decide) (by decide) (by decide)⟩

/-! ## Union area of the sweep (claim C2): coordinate list facts -/

/-- The sorted X list is a permutation of the deduplicated coordinates. -/
theorem i_to_x_perm (rs : List Rect) :
    (i_to_x rs).Perm ((rs.map Rect.x1 ++ rs.map Rect.x2).dedup) :=
  List.perm_insertionSort _ _

/-- The X list is sorted. -/
theorem i_to_x_sorted (rs : List Rect) :
    List.Sorted (fun a b : ℤ => a ≤ b) (i_to_x rs) :=
  List.sorted_insertionSort _ _

/-- The X list has no duplicates (it came from a set). -/
theorem i_to_x_nodup (rs : List Rect) : (i_to_x rs).Nodup :=
  (i_to_x_perm rs).nodup_iff.mpr (List.nodup_dedup _)

/-- The X list is strictly sorted. -/
theorem i_to_x_sorted_lt (rs : List Rect) :
    List.Sorted (fun a b : ℤ => a < b) (i_to_x rs) :=
  ((i_to_x_sorted rs).and (i_to_x_nodup rs)).imp fun h => lt_of_le_of_ne h.1 h.2

/-- Membership in the X list is membership among the rectangle X bounds. -/
theorem mem_i_to_x {rs : List Rect} {a : ℤ} :
    a ∈ i_to_x rs ↔ a ∈ rs.map Rect.x1 ++ rs.map Rect.x2 := by
  rw [(i_to_x_perm rs).mem_iff, List.mem_dedup]

/-- The sorted Y list is a permutation of the deduplicated coordinates. -/
theorem i_to_y_perm (rs : List Rect) :
    (i_to_y rs).Perm ((rs.map Rect.y1 ++ rs.map Rect.y2).dedup) :=
  List.perm_insertionSort _ _

/-- The Y list is sorted. -/
theorem i_to_y_sorted (rs : List Rect) :
    List.Sorted (fun a b : ℤ => a ≤ b) (i_to_y rs) :=
  List.sorted_insertionSort _ _

/-- Membership in the Y list is membership among the rectangle Y bounds. -/
theorem mem_i_to_y {rs : List Rect} {a : ℤ} :
    a ∈ i_to_y rs ↔ a ∈ rs.map Rect.y1 ++ rs.map Rect.y2 := by
  rw [(i_to_y_perm rs).mem_iff, List.mem_dedup]

/-- On a strictly sorted list, positions order values strictly. -/
theorem getD_lt_of_sorted {l : List ℤ} (hs : List.Sorted (fun a b : ℤ => a < b) l)
    {i j : ℕ} (hij : i < j) (hj : j < l.length) : l.getD i 0 < l.getD j 0 := by
  have hi : i < l.length := lt_trans hij hj
  rw [List.getD_eq_getElem _ _ hi, List.getD_eq_getElem _ _ hj]
  exact hs.rel_get_of_lt (a := ⟨i, hi⟩) (b := ⟨j, hj⟩) hij

/-- On a strictly sorted list, positions order values. -/
theorem getD_le_of_sorted {l : List ℤ} (hs : List.Sorted (fun a b : ℤ => a < b) l)
    {i j : ℕ} (hij : i ≤ j) (hj : j < l.length) : l.getD i 0 ≤ l.getD j 0 := by
  rcases Nat.lt_or_ge i j with h | h
  · exact le_of_lt (getD_lt_of_sorted hs h hj)
  · have : i = j := le_antisymm hij h
    rw [this]

/-- On a strictly sorted list, value order reflects position order. -/
theorem idx_le_of_getD_le {l : List ℤ} (hs : List.Sorted (fun a b : ℤ => a < b) l)
    {i j : ℕ} (hi : i < l.length) (h : l.getD i 0 ≤ l.getD j 0) : i ≤ j := by
  by_contra hc
  push_neg at hc
  exact absurd h (not_le.mpr (getD_lt_of_sorted hs hc hi))

/-- On a strictly sorted list, strict value order reflects strict position
order. -/
theorem idx_lt_of_getD_lt {l : List ℤ} (hs : List.Sorted (fun a b : ℤ => a < b) l)
    {i j : ℕ} (hi : i < l.length) (h : l.getD i 0 < l.getD j 0) : i < j := by
  by_contra hc
  push_neg at hc
  exact absurd h (not_lt.mpr (getD_le_of_sorted hs hc hi))

/-- Reading back a member at its `indexOf` position. -/
theorem getD_indexOf_eq {l : List ℤ} {a : ℤ} (h : a ∈ l) :
    l.getD (l.indexOf a) 0 = a := by
  rw [List.getD_eq_getElem _ _ (List.indexOf_lt_length.mpr h)]
  exact List.getElem_indexOf _

/-- An in-range `getD` reads a member of the list. -/
theorem getD_mem_of_lt {α : Type} {l : List α} {n : ℕ} (h : n < l.length) (d : α) :
    l.getD n d ∈ l := by
  rw [List.getD_eq_getElem _ _ h]
  exact List.getElem_mem h

/-- Staircase: a point between two slot boundaries lies in some intermediate
slot. -/
theorem exists_slot {l : List ℤ} :
    ∀ b a : ℕ, a < b → b < l.length → ∀ p : ℤ, l.getD a 0 ≤ p → p < l.getD b 0 →
      ∃ j, a ≤ j ∧ j < b ∧ l.getD j 0 ≤ p ∧ p < l.getD (j + 1) 0 := by
  intro b
  induction b using Nat.strong_induction_on with
  | _ b ih =>
    intro a hab hb p hp1 hp2
    by_cases hb1 : b = a + 1
    · subst hb1
      exact ⟨a, le_refl a, by omega, hp1, hp2⟩
    · have hab2 : a + 1 < b := by omega
      by_cases hx : l.getD (b - 1) 0 ≤ p
      · refine ⟨b - 1, by omega, by omega, hx, ?_⟩
        have hbb : b - 1 + 1 = b := by omega
        rw [hbb]
        exact hp2
      · push_neg at hx
        obtain ⟨j, h1, h2, h3, h4⟩ :=
          ih (b - 1) (by omega) a (by omega) (by omega) p hp1 hx
        exact ⟨j, h1, by omega, h3, h4⟩

/-- For a nonempty list the `getLastD` value does not depend on the
default. -/
theorem getLastD_congr {α : Type} {l : List α} (h : l ≠ []) (d1 d2 : α) :
    l.getLastD d1 = l.getLastD d2 := by
  cases l with
  | nil => exact absurd rfl h
  | cons a t => rfl

/-- For a nonempty list the `getLastD` value is a member. -/
theorem getLastD_mem {α : Type} : ∀ {l : List α}, l ≠ [] → ∀ d : α, l.getLastD d ∈ l := by
  intro l
  induction l with
  | nil => intro h; exact absurd rfl h
  | cons a t ih =>
    intro _ d
    rw [List.getLastD_cons]
    cases ht : t with
    | nil => simp [List.getLastD]
    | cons b u =>
      rw [← ht]
      exact List.mem_cons_of_mem a (ih (by rw [ht]; exact List.cons_ne_nil b u) a)

/-- The head bound: a sorted list's `headD 0` is at most any member. -/
theorem headD_le_of_sorted {l : List ℤ} (hs : List.Sorted (fun a b : ℤ => a ≤ b) l)
    {a : ℤ} (h : a ∈ l) : l.headD 0 ≤ a := by
  cases l with
  | nil => cases h
  | cons x t =>
    rcases List.mem_cons.mp h with rfl | ht
    · exact le_refl a
    · exact (List.pairwise_cons.mp hs).1 a ht

/-- The tail bound: any member of a sorted list is at most its
`getLastD 0`. -/
theorem le_getLastD_of_sorted {l : List ℤ} (hs : List.Sorted (fun a b : ℤ => a ≤ b) l)
    {a : ℤ} (h : a ∈ l) : a ≤ l.getLastD 0 := by
  induction l with
  | nil => cases h
  | cons x t ih =>
    obtain ⟨hhead, htail⟩ := List.pairwise_cons.mp hs
    rw [List.getLastD_cons]
    rcases List.mem_cons.mp h with rfl | ht
    · cases hteq : t with
      | nil => simp [List.getLastD]
      | cons b u =>
        rw [← hteq]
        exact hhead _ (getLastD_mem (by rw [hteq]; exact List.cons_ne_nil b u) a)
    · have hne : t ≠ [] := List.ne_nil_of_mem ht
      calc a ≤ t.getLastD 0 := ih htail ht
        _ = t.getLastD x := getLastD_congr hne 0 x

/-- The algorithm's slot range `[x_to_i[x1], x_to_i[x2])` selects exactly
the slots whose interval is contained in the rectangle's `[x1, x2)`. -/
theorem slotCovers_iff {rs : List Rect} {r : Rect}
    (hr1 : r.x1 ∈ i_to_x rs) (hr2 : r.x2 ∈ i_to_x rs)
    {j : ℕ} (hj : j + 1 < (i_to_x rs).length) :
    slotCovers (i_to_x rs) r j ↔
      r.x1 ≤ (i_to_x rs).getD j 0 ∧ (i_to_x rs).getD (j + 1) 0 ≤ r.x2 := by
  have hlt := i_to_x_sorted_lt rs
  have hi1 : (i_to_x rs).indexOf r.x1 < (i_to_x rs).length := List.indexOf_lt_length.mpr hr1
  have hi2 : (i_to_x rs).indexOf r.x2 < (i_to_x rs).length := List.indexOf_lt_length.mpr hr2
  have hv1 : (i_to_x rs).getD ((i_to_x rs).indexOf r.x1) 0 = r.x1 := getD_indexOf_eq hr1
  have hv2 : (i_to_x rs).getD ((i_to_x rs).indexOf r.x2) 0 = r.x2 := getD_indexOf_eq hr2
  unfold slotCovers
  constructor
  · rintro ⟨h1, h2⟩
    constructor
    · rw [← hv1]
      exact getD_le_of_sorted hlt h1 (by omega)
    · rw [← hv2]
      exact getD_le_of_sorted hlt h2 hi2
  · rintro ⟨h1, h2⟩
    constructor
    · refine idx_le_of_getD_le hlt hi1 ?_
      rw [hv1]
      exact h1
    · have hle : j + 1 ≤ (i_to_x rs).indexOf r.x2 :=
        idx_le_of_getD_le hlt hj (by rw [hv2]; exact h2)
      omega

/-- Summing a function over a filtered list equals summing its guarded
version over the whole list. -/
theorem sum_map_filter_eq {α : Type} (l : List α) (p : α → Bool) (f : α → ℤ) :
    ((l.filter p).map f).sum = (l.map fun a => if p a then f a else 0).sum := by
  induction l with
  | nil => rfl
  | cons a t ih =>
    by_cases h : p a <;> simp [List.filter_cons, h, ih]

/-- Summing a function over a decidably filtered list equals summing its
guarded version over the whole list. -/
theorem sum_map_filter_eq_prop {α : Type} (l : List α) (p : α → Prop) [DecidablePred p]
    (f : α → ℤ) :
    ((l.filter fun a => decide (p a)).map f).sum
      = (l.map fun a => if p a then f a else 0).sum := by
  induction l with
  | nil => rfl
  | cons a t ih =>
    by_cases h : p a <;> simp [List.filter_cons, h, ih]

/-- Summing over a `flatMap` groups into per-element block sums. -/
theorem sum_map_flatMap {α β : Type} (l : List α) (g : α → List β) (f : β → ℤ) :
    ((l.flatMap g).map f).sum = (l.map fun a => ((g a).map f).sum).sum := by
  induction l with
  | nil => rfl
  | cons a t ih => simp [ih]

/-- A sum of 0/1 indicators is a count. -/
theorem sum_indicator_eq_countP {α : Type} (l : List α) (p : α → Prop) [DecidablePred p] :
    (l.map fun a => if p a then (1 : ℤ) else 0).sum
      = ((l.countP fun a => decide (p a) : ℕ) : ℤ) := by
  induction l with
  | nil => rfl
  | cons a t ih =>
    by_cases h : p a <;> simp [List.countP_cons, h, ih] <;> push_cast <;> ring

/-- Row counting: the number of covered cells in row `q` equals the total
width of the compressed slots covered by some rectangle active at `q`. -/
theorem row_card (rs : List Rect) (hv : ∀ r ∈ rs, r.x1 < r.x2 ∧ r.y1 < r.y2) (q : ℤ) :
    (Wrow rs q : ℤ)
      = ∑ j ∈ (Finset.range ((i_to_x rs).length - 1)).filter
          (fun j => activeCnt rs q j ≠ 0), slot_width (i_to_x rs) j := by
  have hlt := i_to_x_sorted_lt rs
  have hle := i_to_x_sorted rs
  have hbi : rowCovered rs q
      = ((Finset.range ((i_to_x rs).length - 1)).filter
          (fun j => activeCnt rs q j ≠ 0)).biUnion
          (fun j => Finset.Ico ((i_to_x rs).getD j 0) ((i_to_x rs).getD (j + 1) 0)) := by
    ext p
    simp only [rowCovered, Finset.mem_filter, Finset.mem_Ico, Finset.mem_biUnion,
      Finset.mem_range]
    constructor
    · rintro ⟨⟨hplo, hphi⟩, r, hrmem, hx1p, hpx2, hy1q, hqy2⟩
      have hx1 : r.x1 ∈ i_to_x rs := by
        rw [mem_i_to_x]
        exact List.mem_append_left _ (List.mem_map_of_mem Rect.x1 hrmem)
      have hx2 : r.x2 ∈ i_to_x rs := by
        rw [mem_i_to_x]
        exact List.mem_append_right _ (List.mem_map_of_mem Rect.x2 hrmem)
      have hi1 : (i_to_x rs).indexOf r.x1 < (i_to_x rs).length := List.indexOf_lt_length.mpr hx1
      have hi2 : (i_to_x rs).indexOf r.x2 < (i_to_x rs).length := List.indexOf_lt_length.mpr hx2
      have hv1 : (i_to_x rs).getD ((i_to_x rs).indexOf r.x1) 0 = r.x1 := getD_indexOf_eq hx1
      have hv2 : (i_to_x rs).getD ((i_to_x rs).indexOf r.x2) 0 = r.x2 := getD_indexOf_eq hx2
      have hi12 : (i_to_x rs).indexOf r.x1 < (i_to_x rs).indexOf r.x2 := by
        refine idx_lt_of_getD_lt hlt hi1 ?_
        rw [hv1, hv2]
        exact (hv r hrmem).1
      obtain ⟨j, hj1, hj2, hj3, hj4⟩ := exists_slot _ _ hi12 hi2 p
        (by rw [hv1]; exact hx1p) (by rw [hv2]; exact hpx2)
      refine ⟨j, ⟨by omega, ?_⟩, hj3, hj4⟩
      have hpos : 0 < (activeRects rs q).countP
          fun r => decide (slotCovers (i_to_x rs) r j) := by
        rw [List.countP_pos]
        refine ⟨r, ?_, ?_⟩
        · unfold activeRects
          rw [List.mem_filter]
          exact ⟨hrmem, by simp [hy1q, hqy2]⟩
        · simp only [decide_eq_true_eq]
          exact ⟨hj1, hj2⟩
      unfold activeCnt
      omega
    · rintro ⟨j, ⟨hjlen, hcnt⟩, hpj, hpj1⟩
      have hpos : 0 < (activeRects rs q).countP
          fun r => decide (slotCovers (i_to_x rs) r j) := by
        unfold activeCnt at hcnt
        omega
      obtain ⟨r, hrmem, hrcov⟩ := List.countP_pos.mp hpos
      simp only [decide_eq_true_eq] at hrcov
      obtain ⟨hi1j, hji2⟩ := hrcov
      have hrrs : r ∈ rs := List.mem_of_mem_filter hrmem
      have hract : r.y1 ≤ q ∧ q < r.y2 := by
        unfold activeRects at hrmem
        rw [List.mem_filter] at hrmem
        simpa using hrmem.2
      have hx1 : r.x1 ∈ i_to_x rs := by
        rw [mem_i_to_x]
        exact List.mem_append_left _ (List.mem_map_of_mem Rect.x1 hrrs)
      have hx2 : r.x2 ∈ i_to_x rs := by
        rw [mem_i_to_x]
        exact List.mem_append_right _ (List.mem_map_of_mem Rect.x2 hrrs)
      have hi1 : (i_to_x rs).indexOf r.x1 < (i_to_x rs).length := List.indexOf_lt_length.mpr hx1
      have hi2 : (i_to_x rs).indexOf r.x2 < (i_to_x rs).length := List.indexOf_lt_length.mpr hx2
      have hv1 : (i_to_x rs).getD ((i_to_x rs).indexOf r.x1) 0 = r.x1 := getD_indexOf_eq hx1
      have hv2 : (i_to_x rs).getD ((i_to_x rs).indexOf r.x2) 0 = r.x2 := getD_indexOf_eq hx2
      have hx1p : r.x1 ≤ p := by
        rw [← hv1]
        exact le_trans (getD_le_of_sorted hlt hi1j (by omega)) hpj
      have hpx2 : p < r.x2 := by
        rw [← hv2]
        exact lt_of_lt_of_le hpj1 (getD_le_of_sorted hlt hji2 hi2)
      refine ⟨⟨?_, ?_⟩, r, hrrs, hx1p, hpx2, hract.1, hract.2⟩
      · show xLo rs ≤ p
        unfold xLo
        refine le_trans ?_ hpj
        exact headD_le_of_sorted hle (getD_mem_of_lt (by omega) 0)
      · show p < xHi rs
        unfold xHi
        refine lt_of_lt_of_le hpj1 ?_
        exact le_getLastD_of_sorted hle (getD_mem_of_lt (by omega) 0)
  have hdisj : ∀ i ∈ (Finset.range ((i_to_x rs).length - 1)).filter
      (fun j => activeCnt rs q j ≠ 0), ∀ j ∈ (Finset.range ((i_to_x rs).length - 1)).filter
      (fun j => activeCnt rs q j ≠ 0), i ≠ j →
      Disjoint (Finset.Ico ((i_to_x rs).getD i 0) ((i_to_x rs).getD (i + 1) 0))
        (Finset.Ico ((i_to_x rs).getD j 0) ((i_to_x rs).getD (j + 1) 0)) := by
    have key : ∀ i j : ℕ, i < j → j < (i_to_x rs).length - 1 →
        Disjoint (Finset.Ico ((i_to_x rs).getD i 0) ((i_to_x rs).getD (i + 1) 0))
          (Finset.Ico ((i_to_x rs).getD j 0) ((i_to_x rs).getD (j + 1) 0)) := by
      intro i j hij hjlen
      rw [Finset.disjoint_left]
      intro p hpi hpj
      rw [Finset.mem_Ico] at hpi hpj
      have : (i_to_x rs).getD (i + 1) 0 ≤ (i_to_x rs).getD j 0 :=
        getD_le_of_sorted hlt (by omega) (by omega)
      omega
    intro i hi j hj hij
    rw [Finset.mem_filter, Finset.mem_range] at hi hj
    rcases Nat.lt_or_ge i j with h | h
    · exact key i j h hj.1
    · exact (key j i (by omega) hi.1).symm
  unfold Wrow
  rw [hbi, Finset.card_biUnion hdisj]
  push_cast
  refine Finset.sum_congr rfl ?_
  intro j hj
  rw [Finset.mem_filter, Finset.mem_range] at hj
  have hlt1 : (i_to_x rs).getD j 0 < (i_to_x rs).getD (j + 1) 0 :=
    getD_lt_of_sorted hlt (by omega) (by omega)
  rw [Int.card_Ico]
  unfold slot_width
  push_cast [Int.toNat_of_nonneg (by omega : (0 : ℤ) ≤ (i_to_x rs).getD (j + 1) 0 - (i_to_x rs).getD j 0)]
  ring

/-- Changing a counter family at one slot changes the described union width
by exactly that slot's contribution. -/
theorem lenSpec_update (xs : List ℤ) (c c' : ℕ → ℤ) (j : ℕ) (hj : j < xs.length - 1)
    (hcc : ∀ k, k ≠ j → c' k = c k) :
    lenSpec xs c' = lenSpec xs c + (if c' j ≠ 0 then slot_width xs j else 0)
      - (if c j ≠ 0 then slot_width xs j else 0) := by
  unfold lenSpec
  rw [Finset.sum_filter, Finset.sum_filter]
  have hmem : j ∈ Finset.range (xs.length - 1) := Finset.mem_range.mpr hj
  rw [← Finset.add_sum_erase _ (fun k => if c' k ≠ 0 then slot_width xs k else 0) hmem,
    ← Finset.add_sum_erase _ (fun k => if c k ≠ 0 then slot_width xs k else 0) hmem]
  have herase : ∑ k ∈ (Finset.range (xs.length - 1)).erase j,
      (if c' k ≠ 0 then slot_width xs k else 0)
      = ∑ k ∈ (Finset.range (xs.length - 1)).erase j,
        (if c k ≠ 0 then slot_width xs k else 0) :=
    Finset.sum_congr rfl fun k hk => by rw [hcc k (Finset.ne_of_mem_erase hk)]
  rw [herase]
  ring

/-- The bookkeeping of one inner-loop iteration keeps `len_union_intervals`
equal to the union width its counters describe. -/
theorem inner_step_len (off : ℤ) (xs : List ℤ) (c : ℕ → ℤ) (len : ℤ) (j : ℕ)
    (hj : j < xs.length - 1) (hlen : len = lenSpec xs c) :
    (inner_step off xs (c, len) j).2 = lenSpec xs (inner_step off xs (c, len) j).1 := by
  unfold inner_step
  dsimp only
  rw [lenSpec_update xs c (fun k => if k = j then c j + off else c k) j hj
    (fun k hk => by simp [hk])]
  simp only [if_pos rfl]
  subst hlen
  by_cases h1 : c j = 0 <;> by_cases h2 : c j + off = 0 <;> simp [h1, h2] <;>
    first
    | (split_ifs <;> ring)
    | ring

/-- Effect of the inner loop on the counters: every slot in
`[a, a + n)` is shifted by `offset`, all others are untouched. -/
theorem inner_loop_cnt (off : ℤ) (xs : List ℤ) :
    ∀ (n a : ℕ) (c : ℕ → ℤ) (len : ℤ),
      ((List.range' a n).foldl (inner_step off xs) (c, len)).1
        = fun k => if a ≤ k ∧ k < a + n then c k + off else c k := by
  intro n
  induction n with
  | zero =>
    intro a c len
    funext k
    rw [if_neg (by omega)]
    rfl
  | succ n ih =>
    intro a c len
    rw [List.range'_succ, List.foldl_cons]
    show ((List.range' (a + 1) n).foldl (inner_step off xs)
      ((fun k => if k = a then c a + off else c k),
        (inner_step off xs (c, len) a).2)).1 = _
    rw [ih (a + 1) _ _]
    funext k
    by_cases hk : k = a
    · subst hk
      rw [if_neg (by omega), if_pos rfl, if_pos (by omega)]
    · simp only [if_neg hk]
      by_cases h1 : a + 1 ≤ k ∧ k < a + 1 + n
      · rw [if_pos h1, if_pos (by omega)]
      · rw [if_neg h1, if_neg (by omega)]

/-- Effect of the inner loop on the union width: when the walked slots stay
within range, `len_union_intervals` still describes the counters. -/
theorem inner_loop_len (off : ℤ) (xs : List ℤ) :
    ∀ (n a : ℕ) (c : ℕ → ℤ) (len : ℤ), a + n ≤ xs.length - 1 → len = lenSpec xs c →
      ((List.range' a n).foldl (inner_step off xs) (c, len)).2
        = lenSpec xs ((List.range' a n).foldl (inner_step off xs) (c, len)).1 := by
  intro n
  induction n with
  | zero =>
    intro a c len _ h
    simpa using h
  | succ n ih =>
    intro a c len hbound hlen
    rw [List.range'_succ, List.foldl_cons]
    exact ih (a + 1) (inner_step off xs (c, len) a).1 (inner_step off xs (c, len) a).2
      (by omega) (inner_step_len off xs c len a (by omega) hlen)

/-- The sorted event list is sorted under the comparator's order. -/
theorem sorted_events_sorted (rs : List Rect) :
    List.Sorted event_le (sorted_events rs) :=
  List.sorted_insertionSort _ _

/-- The sorted event list is a permutation of the built event list. -/
theorem sorted_events_perm (rs : List Rect) :
    (sorted_events rs).Perm (sweep_events rs) :=
  List.perm_insertionSort _ _

/-- The comparator's order implies `y` order (its primary key). -/
theorem event_le_y {e1 e2 : SweepEvent} (h : event_le e1 e2) : e1.y ≤ e2.y := by
  unfold event_le cmp_event at h
  split_ifs at h <;> omega

/-- The opening event of every rectangle is among the sorted events. -/
theorem opening_mem_sorted_events {rs : List Rect} {r : Rect} (h : r ∈ rs) :
    (⟨r.y1, OPENING, r.x1, r.x2⟩ : SweepEvent) ∈ sorted_events rs := by
  rw [(sorted_events_perm rs).mem_iff]
  unfold sweep_events
  rw [List.mem_flatMap]
  exact ⟨r, h, by simp⟩

/-- The closing event of every rectangle is among the sorted events. -/
theorem closing_mem_sorted_events {rs : List Rect} {r : Rect} (h : r ∈ rs) :
    (⟨r.y2, CLOSING, r.x1, r.x2⟩ : SweepEvent) ∈ sorted_events rs := by
  rw [(sorted_events_perm rs).mem_iff]
  unfold sweep_events
  rw [List.mem_flatMap]
  exact ⟨r, h, by simp⟩

/-- Every sorted event is an opening or closing event of some rectangle. -/
theorem mem_sorted_events {rs : List Rect} {e : SweepEvent} (h : e ∈ sorted_events rs) :
    ∃ r ∈ rs, e = (⟨r.y1, OPENING, r.x1, r.x2⟩ : SweepEvent) ∨
      e = (⟨r.y2, CLOSING, r.x1, r.x2⟩ : SweepEvent) := by
  rw [(sorted_events_perm rs).mem_iff] at h
  unfold sweep_events at h
  rw [List.mem_flatMap] at h
  obtain ⟨r, hr, he⟩ := h
  refine ⟨r, hr, ?_⟩
  simpa using he

/-- Every event `y` is bounded below by the least Y coordinate. -/
theorem yLo_le_event_y {rs : List Rect} {e : SweepEvent} (h : e ∈ sorted_events rs) :
    yLo rs ≤ e.y := by
  obtain ⟨r, hr, he⟩ := mem_sorted_events h
  have hy : e.y ∈ rs.map Rect.y1 ++ rs.map Rect.y2 := by
    rcases he with rfl | rfl
    · exact List.mem_append_left _ (List.mem_map_of_mem Rect.y1 hr)
    · exact List.mem_append_right _ (List.mem_map_of_mem Rect.y2 hr)
  exact headD_le_of_sorted (i_to_y_sorted rs) (mem_i_to_y.mpr hy)

/-- Every event `y` is bounded above by the greatest Y coordinate. -/
theorem event_y_le_yHi {rs : List Rect} {e : SweepEvent} (h : e ∈ sorted_events rs) :
    e.y ≤ yHi rs := by
  obtain ⟨r, hr, he⟩ := mem_sorted_events h
  have hy : e.y ∈ rs.map Rect.y1 ++ rs.map Rect.y2 := by
    rcases he with rfl | rfl
    · exact List.mem_append_left _ (List.mem_map_of_mem Rect.y1 hr)
    · exact List.mem_append_right _ (List.mem_map_of_mem Rect.y2 hr)
  exact le_getLastD_of_sorted (i_to_y_sorted rs) (mem_i_to_y.mpr hy)

/-- For a nonempty list the `headD` value is a member. -/
theorem headD_mem {α : Type} {l : List α} (h : l ≠ []) (d : α) : l.headD d ∈ l := by
  cases l with
  | nil => exact absurd rfl h
  | cons a t => simp

/-- For a nonempty rectangle list some event attains the least Y
coordinate. -/
theorem exists_event_y_eq_yLo {rs : List Rect} (h : rs ≠ []) :
    ∃ e ∈ sorted_events rs, e.y = yLo rs := by
  obtain ⟨r0, rs', rfl⟩ := List.exists_cons_of_ne_nil h
  have hne : i_to_y (r0 :: rs') ≠ [] := by
    intro hnil
    have : r0.y1 ∈ i_to_y (r0 :: rs') :=
      mem_i_to_y.mpr (List.mem_append_left _ (List.mem_map_of_mem Rect.y1 (List.mem_cons_self r0 rs')))
    rw [hnil] at this
    cases this
  have hmem : yLo (r0 :: rs') ∈ i_to_y (r0 :: rs') := headD_mem hne 0
  have := mem_i_to_y.mp hmem
  rcases List.mem_append.mp this with hy | hy
  · obtain ⟨r, hr, hry⟩ := List.mem_map.mp hy
    exact ⟨⟨r.y1, OPENING, r.x1, r.x2⟩, opening_mem_sorted_events hr, hry⟩
  · obtain ⟨r, hr, hry⟩ := List.mem_map.mp hy
    exact ⟨⟨r.y2, CLOSING, r.x1, r.x2⟩, closing_mem_sorted_events hr, hry⟩

/-- For a nonempty rectangle list some event attains the greatest Y
coordinate. -/
theorem exists_event_y_eq_yHi {rs : List Rect} (h : rs ≠ []) :
    ∃ e ∈ sorted_events rs, e.y = yHi rs := by
  obtain ⟨r0, rs', rfl⟩ := List.exists_cons_of_ne_nil h
  have hne : i_to_y (r0 :: rs') ≠ [] := by
    intro hnil
    have : r0.y1 ∈ i_to_y (r0 :: rs') :=
      mem_i_to_y.mpr (List.mem_append_left _ (List.mem_map_of_mem Rect.y1 (List.mem_cons_self r0 rs')))
    rw [hnil] at this
    cases this
  have hmem : yHi (r0 :: rs') ∈ i_to_y (r0 :: rs') := getLastD_mem hne 0
  have := mem_i_to_y.mp hmem
  rcases List.mem_append.mp this with hy | hy
  · obtain ⟨r, hr, hry⟩ := List.mem_map.mp hy
    exact ⟨⟨r.y1, OPENING, r.x1, r.x2⟩, opening_mem_sorted_events hr, hry⟩
  · obtain ⟨r, hr, hry⟩ := List.mem_map.mp hy
    exact ⟨⟨r.y2, CLOSING, r.x1, r.x2⟩, closing_mem_sorted_events hr, hry⟩

/-- In a sorted event list every member's `y` is at most the last `y`. -/
theorem le_getLastD_y_of_sorted :
    ∀ {S : List SweepEvent}, List.Sorted event_le S →
      ∀ {e}, e ∈ S → ∀ d, e.y ≤ (S.getLastD d).y := by
  intro S
  induction S with
  | nil => intro _ e h; cases h
  | cons a t ih =>
    intro hs e he d
    obtain ⟨hhead, htail⟩ := List.pairwise_cons.mp hs
    rw [List.getLastD_cons]
    rcases List.mem_cons.mp he with rfl | ht
    · cases hteq : t with
      | nil => simp [List.getLastD]
      | cons b u =>
        rw [← hteq]
        exact event_le_y (hhead _ (getLastD_mem (by rw [hteq]; exact List.cons_ne_nil b u) e))
    · exact ih htail ht a

/-- Counters are additive over processed event lists. -/
theorem cntAfter_append (xs : List ℤ) (l1 l2 : List SweepEvent) (j : ℕ) :
    cntAfter xs (l1 ++ l2) j = cntAfter xs l1 j + cntAfter xs l2 j := by
  unfold cntAfter
  rw [List.map_append, List.sum_append]

/-- When the processed prefix is exactly the events with `y ≤ Y`, the slot
counters count the rectangles active at `Y` covering the slot. -/
theorem cnt_done_eq_activeCnt (rs : List Rect)
    (hv : ∀ r ∈ rs, r.x1 < r.x2 ∧ r.y1 < r.y2) (Y : ℤ)
    (done T : List SweepEvent) (hS : sorted_events rs = done ++ T)
    (hdone : ∀ e ∈ done, e.y ≤ Y) (hT : ∀ e ∈ T, ¬ e.y ≤ Y) (j : ℕ) :
    cntAfter (i_to_x rs) done j = (activeCnt rs Y j : ℤ) := by
  have hfilter : (sorted_events rs).filter (fun e => decide (e.y ≤ Y)) = done := by
    rw [hS, List.filter_append]
    rw [List.filter_eq_self.mpr (fun e he => by simpa using hdone e he),
      List.filter_eq_nil_iff.mpr (fun e he => by simpa using hT e he), List.append_nil]
  have h1 : cntAfter (i_to_x rs) done j
      = ((sorted_events rs).map fun e =>
          if e.y ≤ Y then eventContrib (i_to_x rs) e j else 0).sum := by
    unfold cntAfter
    rw [← hfilter]
    exact sum_map_filter_eq_prop _ _ _
  have h2 : ((sorted_events rs).map fun e =>
        if e.y ≤ Y then eventContrib (i_to_x rs) e j else 0).sum
      = ((sweep_events rs).map fun e =>
          if e.y ≤ Y then eventContrib (i_to_x rs) e j else 0).sum :=
    ((sorted_events_perm rs).map _).sum_eq
  have h3 : ((sweep_events rs).map fun e =>
        if e.y ≤ Y then eventContrib (i_to_x rs) e j else 0).sum
      = (rs.map fun r =>
          (if r.y1 ≤ Y then eventContrib (i_to_x rs) ⟨r.y1, OPENING, r.x1, r.x2⟩ j else 0)
            + (if r.y2 ≤ Y then eventContrib (i_to_x rs) ⟨r.y2, CLOSING, r.x1, r.x2⟩ j
                else 0)).sum := by
    unfold sweep_events
    rw [sum_map_flatMap]
    congr 1
    refine List.map_congr_left ?_
    intro r _
    simp
  have h4 : (rs.map fun r =>
        (if r.y1 ≤ Y then eventContrib (i_to_x rs) ⟨r.y1, OPENING, r.x1, r.x2⟩ j else 0)
          + (if r.y2 ≤ Y then eventContrib (i_to_x rs) ⟨r.y2, CLOSING, r.x1, r.x2⟩ j
              else 0)).sum
      = (rs.map fun r =>
          if (r.y1 ≤ Y ∧ Y < r.y2) ∧ slotCovers (i_to_x rs) r j then (1 : ℤ) else 0).sum := by
    congr 1
    refine List.map_congr_left ?_
    intro r hr
    have hyy := (hv r hr).2
    unfold eventContrib OPENING CLOSING slotCovers
    dsimp only
    split_ifs <;> omega
  have h5 : (rs.map fun r =>
        if (r.y1 ≤ Y ∧ Y < r.y2) ∧ slotCovers (i_to_x rs) r j then (1 : ℤ) else 0).sum
      = (activeCnt rs Y j : ℤ) := by
    unfold activeCnt activeRects
    rw [← sum_indicator_eq_countP ((rs.filter fun r => decide (r.y1 ≤ Y ∧ Y < r.y2)))
      (fun r => slotCovers (i_to_x rs) r j)]
    rw [sum_map_filter_eq_prop]
    congr 1
    refine List.map_congr_left ?_
    intro r _
    by_cases hya : r.y1 ≤ Y ∧ Y < r.y2 <;> by_cases hsc : slotCovers (i_to_x rs) r j <;>
      simp [hya, hsc]
  rw [h1, h2, h3, h4, h5]

/-- Between two consecutive event heights the active rectangle set does not
change. -/
theorem activeRects_congr (rs : List Rect) (prev q nexty : ℤ)
    (done T : List SweepEvent) (hS : sorted_events rs = done ++ T)
    (hdone : ∀ e ∈ done, e.y ≤ prev) (hT : ∀ e ∈ T, nexty ≤ e.y)
    (hq1 : prev ≤ q) (hq2 : q < nexty) :
    activeRects rs q = activeRects rs prev := by
  unfold activeRects
  refine List.filter_congr ?_
  intro r hr
  have ho := opening_mem_sorted_events hr
  have hc := closing_mem_sorted_events hr
  rw [hS] at ho hc
  have hy1 : r.y1 ≤ prev ∨ nexty ≤ r.y1 := by
    rcases List.mem_append.mp ho with h | h
    · exact Or.inl (hdone _ h)
    · exact Or.inr (hT _ h)
  have hy2 : r.y2 ≤ prev ∨ nexty ≤ r.y2 := by
    rcases List.mem_append.mp hc with h | h
    · exact Or.inl (hdone _ h)
    · exact Or.inr (hT _ h)
  rw [decide_eq_decide]
  omega

/-- The `y` of a `getLastD` only depends on the default through its `y`. -/
theorem getLastD_y_congr (l : List SweepEvent) (d1 d2 : SweepEvent) (h : d1.y = d2.y) :
    (l.getLastD d1).y = (l.getLastD d2).y := by
  cases l with
  | nil => exact h
  | cons a t => rw [List.getLastD_cons, List.getLastD_cons]

/-- Main sweep invariant: folding the remaining events over a state that
correctly describes a processed nonempty prefix accumulates exactly the
union area of the rows up to the last event height. -/
theorem sweep_loop_invariant (rs : List Rect)
    (hv : ∀ r ∈ rs, r.x1 < r.x2 ∧ r.y1 < r.y2) :
    ∀ (T done : List SweepEvent) (st : SweepState),
      sorted_events rs = done ++ T →
      done ≠ [] →
      (∀ e ∈ done, e.y ≤ st.previous_y) →
      (∃ e ∈ done, e.y = st.previous_y) →
      (∀ j, st.nb_current_rects j = cntAfter (i_to_x rs) done j) →
      st.len_union_intervals = lenSpec (i_to_x rs) st.nb_current_rects →
      st.area = ∑ q ∈ Finset.Ico (yLo rs) st.previous_y, (Wrow rs q : ℤ) →
      (T.foldl (process_event (i_to_x rs)) st).area
        = ∑ q ∈ Finset.Ico (yLo rs)
            ((T.getLastD ⟨st.previous_y, 0, 0, 0⟩).y), (Wrow rs q : ℤ) := by
  intro T
  induction T with
  | nil =>
    intro done st hS hne hdle hdeq hcnt hlen harea
    simpa using harea
  | cons e T' ih =>
    intro done st hS hne hdle hdeq hcnt hlen harea
    rw [List.foldl_cons]
    have hpairwise := sorted_events_sorted rs
    rw [hS] at hpairwise
    obtain ⟨hpd, hpt, hdt⟩ := List.pairwise_append.mp hpairwise
    have hprev_le_e : st.previous_y ≤ e.y := by
      obtain ⟨d0, hd0, hd0y⟩ := hdeq
      rw [← hd0y]
      exact event_le_y (hdt d0 hd0 e (List.mem_cons_self e T'))
    have hT'ge : ∀ f ∈ T', e.y ≤ f.y := fun f hf =>
      event_le_y ((List.pairwise_cons.mp hpt).1 f hf)
    have hyLo_prev : yLo rs ≤ st.previous_y := by
      obtain ⟨d0, hd0, hd0y⟩ := hdeq
      rw [← hd0y]
      exact yLo_le_event_y (by rw [hS]; exact List.mem_append_left _ hd0)
    have he_mem : e ∈ sorted_events rs := by
      rw [hS]
      exact List.mem_append_right _ (List.mem_cons_self e T')
    obtain ⟨re, hre, heform⟩ := mem_sorted_events he_mem
    have hex1 : e.x1 ∈ i_to_x rs := by
      rcases heform with rfl | rfl <;>
        exact mem_i_to_x.mpr (List.mem_append_left _ (List.mem_map_of_mem Rect.x1 hre))
    have hex2 : e.x2 ∈ i_to_x rs := by
      rcases heform with rfl | rfl <;>
        exact mem_i_to_x.mpr (List.mem_append_right _ (List.mem_map_of_mem Rect.x2 hre))
    have hexlt : e.x1 < e.x2 := by
      rcases heform with rfl | rfl <;> exact (hv re hre).1
    have hi1len : (i_to_x rs).indexOf e.x1 < (i_to_x rs).length :=
      List.indexOf_lt_length.mpr hex1
    have hi2len : (i_to_x rs).indexOf e.x2 < (i_to_x rs).length :=
      List.indexOf_lt_length.mpr hex2
    have hi12 : (i_to_x rs).indexOf e.x1 < (i_to_x rs).indexOf e.x2 := by
      refine idx_lt_of_getD_lt (i_to_x_sorted_lt rs) hi1len ?_
      rw [getD_indexOf_eq hex1, getD_indexOf_eq hex2]
      exact hexlt
    have harith : (i_to_x rs).indexOf e.x1
        + ((i_to_x rs).indexOf e.x2 - (i_to_x rs).indexOf e.x1)
        = (i_to_x rs).indexOf e.x2 := by omega
    have hcnt' : ∀ j, (process_event (i_to_x rs) st e).nb_current_rects j
        = cntAfter (i_to_x rs) (done ++ [e]) j := by
      intro j
      show ((List.range' ((i_to_x rs).indexOf e.x1)
          ((i_to_x rs).indexOf e.x2 - (i_to_x rs).indexOf e.x1)).foldl
          (inner_step e.offset (i_to_x rs))
          (st.nb_current_rects, st.len_union_intervals)).1 j = _
      have hfold := congrFun (inner_loop_cnt e.offset (i_to_x rs)
        ((i_to_x rs).indexOf e.x2 - (i_to_x rs).indexOf e.x1)
        ((i_to_x rs).indexOf e.x1) st.nb_current_rects st.len_union_intervals) j
      rw [hfold, harith, cntAfter_append]
      have hsingle : cntAfter (i_to_x rs) [e] j = eventContrib (i_to_x rs) e j := by
        unfold cntAfter
        simp
      rw [hsingle, ← hcnt j]
      unfold eventContrib
      split_ifs <;> ring
    have hlen' : (process_event (i_to_x rs) st e).len_union_intervals
        = lenSpec (i_to_x rs) (process_event (i_to_x rs) st e).nb_current_rects := by
      show ((List.range' ((i_to_x rs).indexOf e.x1)
          ((i_to_x rs).indexOf e.x2 - (i_to_x rs).indexOf e.x1)).foldl
          (inner_step e.offset (i_to_x rs))
          (st.nb_current_rects, st.len_union_intervals)).2 = _
      exact inner_loop_len e.offset (i_to_x rs) _ _ _ _ (by omega) hlen
    have harea' : (process_event (i_to_x rs) st e).area
        = ∑ q ∈ Finset.Ico (yLo rs) e.y, (Wrow rs q : ℤ) := by
      show st.area + (e.y - st.previous_y) * st.len_union_intervals = _
      rcases eq_or_lt_of_le hprev_le_e with heq | hlt
      · rw [harea, ← heq]
        ring
      · have hsplit : ∑ q ∈ Finset.Ico (yLo rs) e.y, (Wrow rs q : ℤ)
            = ∑ q ∈ Finset.Ico (yLo rs) st.previous_y, (Wrow rs q : ℤ)
              + ∑ q ∈ Finset.Ico st.previous_y e.y, (Wrow rs q : ℤ) := by
          rw [← Finset.sum_union
            (Finset.Ico_disjoint_Ico_consecutive (yLo rs) st.previous_y e.y),
            Finset.Ico_union_Ico_eq_Ico hyLo_prev (le_of_lt hlt)]
        rw [hsplit, harea]
        congr 1
        have hdoneT : ∀ f ∈ e :: T', ¬ f.y ≤ st.previous_y := by
          intro f hf
          rcases List.mem_cons.mp hf with rfl | hf'
          · omega
          · have := hT'ge f hf'
            omega
        have hcntprev : ∀ j, st.nb_current_rects j
            = (activeCnt rs st.previous_y j : ℤ) := fun j => by
          rw [hcnt j]
          exact cnt_done_eq_activeCnt rs hv st.previous_y done (e :: T') hS hdle hdoneT j
        have hrow : ∀ q ∈ Finset.Ico st.previous_y e.y,
            (Wrow rs q : ℤ) = st.len_union_intervals := by
          intro q hq
          rw [Finset.mem_Ico] at hq
          have hact : activeRects rs q = activeRects rs st.previous_y :=
            activeRects_congr rs st.previous_y q e.y done (e :: T') hS hdle
              (by
                intro f hf
                rcases List.mem_cons.mp hf with rfl | hf'
                · exact le_refl _
                · exact hT'ge f hf')
              hq.1 hq.2
          rw [row_card rs hv q, hlen]
          unfold lenSpec
          refine Finset.sum_congr ?_ (fun _ _ => rfl)
          refine Finset.filter_congr ?_
          intro j _
          have h1 : activeCnt rs q j = activeCnt rs st.previous_y j := by
            unfold activeCnt
            rw [hact]
          rw [h1, hcntprev j]
          simp [Int.natCast_eq_zero]
        rw [Finset.sum_congr rfl hrow, Finset.sum_const, Int.card_Ico, nsmul_eq_mul,
          Int.toNat_of_nonneg (by omega)]
    have hfin := ih (done ++ [e]) (process_event (i_to_x rs) st e)
      (by rw [hS, List.append_assoc]; rfl)
      (by simp)
      (by
        intro f hf
        rcases List.mem_append.mp hf with hf' | hf'
        · exact le_trans (hdle f hf') hprev_le_e
        · show f.y ≤ e.y
          rcases List.mem_singleton.mp hf' with rfl
          exact le_refl _)
      ⟨e, by simp, rfl⟩
      hcnt' hlen' harea'
    rw [List.getLastD_cons, hfin]
    have hb : (T'.getLastD
          (⟨(process_event (i_to_x rs) st e).previous_y, 0, 0, 0⟩ : SweepEvent)).y
        = (T'.getLastD e).y := getLastD_y_congr T' _ e rfl
    rw [hb]

/-- The union area counts row by row. -/
theorem unionArea_eq_sum_rows (rs : List Rect) :
    unionArea rs = ∑ q ∈ Finset.Ico (yLo rs) (yHi rs), Wrow rs q := by
  unfold unionArea
  rw [Finset.card_eq_sum_card_fiberwise (f := Prod.snd)
    (t := Finset.Ico (yLo rs) (yHi rs))
    (by
      intro pq hpq
      rw [Finset.mem_filter, Finset.mem_product] at hpq
      exact hpq.1.2)]
  refine Finset.sum_congr rfl ?_
  intro q hq
  unfold Wrow rowCovered
  refine Finset.card_bij (fun pq _ => pq.1) ?_ ?_ ?_
  · intro pq hpq
    rw [Finset.mem_filter] at hpq
    obtain ⟨hpq1, hpq2⟩ := hpq
    rw [Finset.mem_filter, Finset.mem_product] at hpq1
    rw [Finset.mem_filter]
    refine ⟨hpq1.1.1, ?_⟩
    show coveredCell rs pq.1 q
    rw [← hpq2]
    exact hpq1.2
  · intro a1 ha1 a2 ha2 heq
    rw [Finset.mem_filter] at ha1 ha2
    have h1 := ha1.2
    have h2 := ha2.2
    exact Prod.ext heq (h1.trans h2.symm)
  · intro p hp
    rw [Finset.mem_filter] at hp
    refine ⟨(p, q), ?_, rfl⟩
    rw [Finset.mem_filter, Finset.mem_filter, Finset.mem_product]
    exact ⟨⟨⟨hp.1, hq⟩, hp.2⟩, rfl⟩

/-- Every covered cell lies in the bounding box of the rectangle list. -/
theorem coveredCell_in_box {rs : List Rect} {p q : ℤ} (h : coveredCell rs p q) :
    xLo rs ≤ p ∧ p < xHi rs ∧ yLo rs ≤ q ∧ q < yHi rs := by
  obtain ⟨r, hr, hc1, hc2, hc3, hc4⟩ := h
  have hx1 : r.x1 ∈ i_to_x rs :=
    mem_i_to_x.mpr (List.mem_append_left _ (List.mem_map_of_mem Rect.x1 hr))
  have hx2 : r.x2 ∈ i_to_x rs :=
    mem_i_to_x.mpr (List.mem_append_right _ (List.mem_map_of_mem Rect.x2 hr))
  have hy1 : r.y1 ∈ i_to_y rs :=
    mem_i_to_y.mpr (List.mem_append_left _ (List.mem_map_of_mem Rect.y1 hr))
  have hy2 : r.y2 ∈ i_to_y rs :=
    mem_i_to_y.mpr (List.mem_append_right _ (List.mem_map_of_mem Rect.y2 hr))
  refine ⟨le_trans (headD_le_of_sorted (i_to_x_sorted rs) hx1) hc1,
    lt_of_lt_of_le hc2 (le_getLastD_of_sorted (i_to_x_sorted rs) hx2),
    le_trans (headD_le_of_sorted (i_to_y_sorted rs) hy1) hc3,
    lt_of_lt_of_le hc4 (le_getLastD_of_sorted (i_to_y_sorted rs) hy2)⟩

/-- The bounded count `unionArea` is the cardinality of the full (finite)
set of covered unit cells: the bounding box loses nothing. -/
theorem unionArea_eq_ncard (rs : List Rect) :
    unionArea rs = Set.ncard {pq : ℤ × ℤ | coveredCell rs pq.1 pq.2} := by
  have hset : {pq : ℤ × ℤ | coveredCell rs pq.1 pq.2}
      = ↑(((Finset.Ico (xLo rs) (xHi rs)) ×ˢ (Finset.Ico (yLo rs) (yHi rs))).filter
        fun pq => coveredCell rs pq.1 pq.2) := by
    ext pq
    simp only [Set.mem_setOf_eq, Finset.coe_filter, Finset.mem_product, Finset.mem_Ico]
    constructor
    · intro h
      obtain ⟨h1, h2, h3, h4⟩ := coveredCell_in_box h
      exact ⟨⟨⟨h1, h2⟩, h3, h4⟩, h⟩
    · exact fun h => h.2
  rw [hset, Set.ncard_coe_Finset]
  rfl

/-- C2: for every list of rectangles with `x1 < x2` and `y1 < y2`,
`calculate_area` returns exactly the area of the union of the rectangles
(the number of integer unit cells covered by at least one rectangle, i.e.
the cardinality of the covered subset of the plane): nesting, identical
overlaps and exactly touching edges are therefore never double counted, and
zero rectangles yield area 0. -/
theorem calculate_area_eq_unionArea :
    ∀ rs : List Rect, (∀ r ∈ rs, r.x1 < r.x2 ∧ r.y1 < r.y2) →
      calculate_area rs = (unionArea rs : ℤ) ∧
      unionArea rs = Set.ncard {pq : ℤ × ℤ | coveredCell rs pq.1 pq.2} := by
  intro rs hv
  refine ⟨?_, unionArea_eq_ncard rs⟩
  by_cases hempty : rs = []
  · subst hempty
    decide
  · have hSne : sorted_events rs ≠ [] := by
      intro h
      obtain ⟨r0, rs', rfl⟩ := List.exists_cons_of_ne_nil hempty
      have := opening_mem_sorted_events (List.mem_cons_self r0 rs')
      rw [h] at this
      cases this
    obtain ⟨e0, T0, hS⟩ := List.exists_cons_of_ne_nil hSne
    have he0_mem : e0 ∈ sorted_events rs := by
      rw [hS]
      exact List.mem_cons_self e0 T0
    obtain ⟨re, hre, heform⟩ := mem_sorted_events he0_mem
    have hex1 : e0.x1 ∈ i_to_x rs := by
      rcases heform with rfl | rfl <;>
        exact mem_i_to_x.mpr (List.mem_append_left _ (List.mem_map_of_mem Rect.x1 hre))
    have hex2 : e0.x2 ∈ i_to_x rs := by
      rcases heform with rfl | rfl <;>
        exact mem_i_to_x.mpr (List.mem_append_right _ (List.mem_map_of_mem Rect.x2 hre))
    have hexlt : e0.x1 < e0.x2 := by
      rcases heform with rfl | rfl <;> exact (hv re hre).1
    have hi1len : (i_to_x rs).indexOf e0.x1 < (i_to_x rs).length :=
      List.indexOf_lt_length.mpr hex1
    have hi2len : (i_to_x rs).indexOf e0.x2 < (i_to_x rs).length :=
      List.indexOf_lt_length.mpr hex2
    have hi12 : (i_to_x rs).indexOf e0.x1 < (i_to_x rs).indexOf e0.x2 := by
      refine idx_lt_of_getD_lt (i_to_x_sorted_lt rs) hi1len ?_
      rw [getD_indexOf_eq hex1, getD_indexOf_eq hex2]
      exact hexlt
    have harith : (i_to_x rs).indexOf e0.x1
        + ((i_to_x rs).indexOf e0.x2 - (i_to_x rs).indexOf e0.x1)
        = (i_to_x rs).indexOf e0.x2 := by omega
    have hlenzero : (0 : ℤ) = lenSpec (i_to_x rs) (fun _ => 0) := by
      unfold lenSpec
      simp
    have he0min : e0.y ≤ yLo rs := by
      obtain ⟨estar, hestar, hestary⟩ := exists_event_y_eq_yLo hempty
      rw [← hestary]
      rw [hS] at hestar
      rcases List.mem_cons.mp hestar with rfl | hmem
      · exact le_refl _
      · have hsorted := sorted_events_sorted rs
        rw [hS] at hsorted
        exact event_le_y ((List.pairwise_cons.mp hsorted).1 estar hmem)
    have hcnt1 : ∀ j, (process_event (i_to_x rs) ⟨0, fun _ => 0, 0, 0⟩ e0).nb_current_rects j
        = cntAfter (i_to_x rs) [e0] j := by
      intro j
      show ((List.range' ((i_to_x rs).indexOf e0.x1)
          ((i_to_x rs).indexOf e0.x2 - (i_to_x rs).indexOf e0.x1)).foldl
          (inner_step e0.offset (i_to_x rs)) ((fun _ => 0), 0)).1 j = _
      have hfold := congrFun (inner_loop_cnt e0.offset (i_to_x rs)
        ((i_to_x rs).indexOf e0.x2 - (i_to_x rs).indexOf e0.x1)
        ((i_to_x rs).indexOf e0.x1) (fun _ => 0) 0) j
      rw [hfold, harith]
      have hsingle : cntAfter (i_to_x rs) [e0] j = eventContrib (i_to_x rs) e0 j := by
        unfold cntAfter
        simp
      rw [hsingle]
      unfold eventContrib
      split_ifs <;> ring
    have hlen1 : (process_event (i_to_x rs) ⟨0, fun _ => 0, 0, 0⟩ e0).len_union_intervals
        = lenSpec (i_to_x rs)
          (process_event (i_to_x rs) ⟨0, fun _ => 0, 0, 0⟩ e0).nb_current_rects := by
      show ((List.range' ((i_to_x rs).indexOf e0.x1)
          ((i_to_x rs).indexOf e0.x2 - (i_to_x rs).indexOf e0.x1)).foldl
          (inner_step e0.offset (i_to_x rs)) ((fun _ => 0), 0)).2 = _
      exact inner_loop_len e0.offset (i_to_x rs) _ _ _ _ (by omega) hlenzero
    have harea1 : (process_event (i_to_x rs) ⟨0, fun _ => 0, 0, 0⟩ e0).area
        = ∑ q ∈ Finset.Ico (yLo rs) e0.y, (Wrow rs q : ℤ) := by
      show (0 : ℤ) + (e0.y - 0) * 0 = _
      rw [Finset.Ico_eq_empty (by omega)]
      simp
    have hfin := sweep_loop_invariant rs hv T0 [e0]
      (process_event (i_to_x rs) ⟨0, fun _ => 0, 0, 0⟩ e0)
      (by rw [hS]; rfl)
      (by simp)
      (by
        intro f hf
        rcases List.mem_singleton.mp hf with rfl
        exact le_refl _)
      ⟨e0, by simp, rfl⟩
      hcnt1 hlen1 harea1
    have hlast : ((T0.getLastD (⟨(process_event (i_to_x rs)
        ⟨0, fun _ => 0, 0, 0⟩ e0).previous_y, 0, 0, 0⟩ : SweepEvent)).y) = yHi rs := by
      have hb : ((T0.getLastD (⟨(process_event (i_to_x rs)
          ⟨0, fun _ => 0, 0, 0⟩ e0).previous_y, 0, 0, 0⟩ : SweepEvent)).y)
          = ((sorted_events rs).getLastD e0).y := by
        rw [hS, List.getLastD_cons]
        exact getLastD_y_congr T0 _ e0 rfl
      rw [hb]
      have hmemlast : (sorted_events rs).getLastD e0 ∈ sorted_events rs :=
        getLastD_mem hSne e0
      refine le_antisymm (event_y_le_yHi hmemlast) ?_
      obtain ⟨estar, hestar, hestary⟩ := exists_event_y_eq_yHi hempty
      rw [← hestary]
      exact le_getLastD_y_of_sorted (sorted_events_sorted rs) hestar e0
    unfold calculate_area
    rw [hS, List.foldl_cons, hfin, hlast, unionArea_eq_sum_rows]
    push_cast
    rfl

/-- Witness for `calculate_area_eq_unionArea`: two identical overlapping
2 by 2 squares have union area 4 (not 8), and two disjoint unit squares
have union area 2. -/
theorem calculate_area_eq_unionArea_witness :
    (∀ r ∈ ([⟨0, 0, 2, 2⟩, ⟨0, 0, 2, 2⟩] : List Rect), r.x1 < r.x2 ∧ r.y1 < r.y2) ∧
    (calculate_area [⟨0, 0, 2, 2⟩, ⟨0, 0, 2, 2⟩]
        = (unionArea [⟨0, 0, 2, 2⟩, ⟨0, 0, 2, 2⟩] : ℤ) ∧
      unionArea [⟨0, 0, 2, 2⟩, ⟨0, 0, 2, 2⟩]
        = Set.ncard {pq : ℤ × ℤ | coveredCell [⟨0, 0, 2, 2⟩, ⟨0, 0, 2, 2⟩] pq.1 pq.2}) ∧
    calculate_area [⟨0, 0, 2, 2⟩, ⟨0, 0, 2, 2⟩] = 4 ∧
    calculate_area [⟨0, 0, 1, 1⟩, ⟨2, 2, 3, 3⟩] = 2 :=
  ⟨by decide, calculate_area_eq_unionArea _ (by decide), by decide, by decide⟩
